import Mathlib

/-!
Verification of the CachyDB storage-engine core (package `pkg/db`) against its
natural-language specification.

The Go code is shallowly embedded in Lean:
* Go maps (`map[string]T`) are modelled as association lists with strictly
  sorted keys (`List (String × T)` + `SortedKeys`), a canonical representation
  of the finite map.  Where Go's random map-iteration order is observable
  (query scans, index selection, iteration over an `updates` map) the order is
  made an explicit parameter and quantified over.
* Mutating methods on a collection become functions
  `Collection → (Option String × Collection)` returning the Go `error`
  (as `Option String`, `none` = `nil`) together with the post-state, so that
  error paths that leave a partially-mutated state are represented faithfully.
* Machine integers are `Nat`/`Int` with explicit `% 2 ^ w` where overflow
  matters; byte files are `List Nat` of values `< 256`.
-/

set_option autoImplicit false
set_option maxRecDepth 16000

namespace CachyDB

/-! ## Canonically sorted association lists (the model of Go maps) -/

universe u

variable {β : Type u}

/-- Lookup of a key in an association list (first match, as in Go maps where
keys are unique). -/
def lookupA : List (String × β) → String → Option β
  | [], _ => none
  | (k', v') :: t, k => if k' = k then some v' else lookupA t k

/-- Code-point lexicographic comparison of character lists (the strict order
underlying Go's byte-wise string order for the ASCII names and keys the engine
uses), computed with plain `Nat` comparisons so that it reduces in the
kernel. -/
def charListLt : List Char → List Char → Bool
  | [], [] => false
  | [], _ :: _ => true
  | _ :: _, [] => false
  | a :: as, b :: bs =>
    if a.toNat < b.toNat then true
    else if b.toNat < a.toNat then false
    else charListLt as bs

/-- Strict lexicographic order on strings. -/
def strLt (a b : String) : Bool := charListLt a.data b.data

/-- Insert (or replace) a key in a key-sorted association list, keeping it
sorted.  This models `m[k] = v` on a Go map. -/
def insertA : List (String × β) → String → β → List (String × β)
  | [], k, v => [(k, v)]
  | (k', v') :: t, k, v =>
    if k = k' then (k, v) :: t
    else if strLt k k' then (k, v) :: (k', v') :: t
    else (k', v') :: insertA t k v

/-- Remove a key from an association list.  This models `delete(m, k)`. -/
def eraseA : List (String × β) → String → List (String × β)
  | [], _ => []
  | (k', v') :: t, k => if k' = k then t else (k', v') :: eraseA t k

/-- The keys of an association list. -/
def keysA (l : List (String × β)) : List String := l.map Prod.fst

/-- Strictly sorted keys: the canonical-form invariant of our map model. -/
abbrev SortedKeys (l : List (String × β)) : Prop :=
  l.Pairwise (fun a b => strLt a.1 b.1 = true)

/-! ## JSON-like document values

The document model (`document.go`) is not part of the provided sources; per the
specification (§3, §9) documents carry arbitrary JSON values, which a statically
typed implementation represents as a sum type
`Null | Bool | Number | String | Array | Object`.  JSON numbers that the engine
manipulates are modelled as integers (Go prints an integral `float64` without a
decimal point, so `fmt.Sprintf("%v", 30.0) = "30"` agrees with the model). -/

/-- Modelled from the spec: the JSON value sum type of §9 ("use a sum type
(`Null | Bool | Number | String | Array | Object`) with stable string
formatting"). -/
inductive Value where
  | null : Value
  | bool : Bool → Value
  | num : Int → Value
  | str : String → Value
  | arr : List Value → Value
  | obj : List (String × Value) → Value

mutual

/-- Go `fmt.Sprintf("%v", value)`: scalars by literal printing, slices as
`[a b]`, maps as `map[k:v ...]`.  This is the stringification used by indexes
and by the `eq`/`ne`/`in` operators (`index.go`, `query.go`). -/
def fmtV : Value → String
  | .null => "<nil>"
  | .bool true => "true"
  | .bool false => "false"
  | .num n => toString n
  | .str s => s
  | .arr xs => "[" ++ fmtVList xs ++ "]"
  | .obj kvs => "map[" ++ fmtVObj kvs ++ "]"

/-- Space-separated element list, as Go prints a slice. -/
def fmtVList : List Value → String
  | [] => ""
  | [x] => fmtV x
  | x :: xs => fmtV x ++ " " ++ fmtVList xs

/-- Space-separated `k:v` pairs, as Go prints a map. -/
def fmtVObj : List (String × Value) → String
  | [] => ""
  | [(k, v)] => k ++ ":" ++ fmtV v
  | (k, v) :: xs => k ++ ":" ++ fmtV v ++ " " ++ fmtVObj xs

end

/-! ## Bytes, little-endian encodings, CRC32 -/

/-- 32-bit exclusive or, computed digit by digit so that every arithmetic step
is plain `Nat` division/remainder. -/
def xor32 : Nat → Nat → Nat → Nat
  | 0, _, _ => 0
  | fuel + 1, a, b =>
    (if a % 2 = b % 2 then 0 else 1) + 2 * xor32 fuel (a / 2) (b / 2)

/-- One step of the CRC32 bit loop: shift right, conditionally xor the
reflected IEEE polynomial `0xEDB88320`. -/
def crc32Bit (crc : Nat) : Nat :=
  if crc % 2 = 1 then xor32 32 (crc / 2) 0xEDB88320 else crc / 2

/-- Eight bit-steps for one input byte. -/
def crc32Byte (crc b : Nat) : Nat :=
  Nat.iterate crc32Bit 8 (xor32 32 crc (b % 256))

/-- CRC32 with the IEEE polynomial (`hash/crc32.ChecksumIEEE`), bitwise
(table-free) formulation over a byte list. -/
def crc32 (data : List Nat) : Nat :=
  xor32 32 (data.foldl crc32Byte 0xFFFFFFFF) 0xFFFFFFFF

/-- Little-endian byte encoding of `n` in `w` bytes (`binary.LittleEndian`). -/
def leBytes : Nat → Nat → List Nat
  | 0, _ => []
  | w + 1, n => n % 256 :: leBytes w (n / 256)

/-- Little-endian decoding of a byte list prefix of width `w`; `none` when
fewer than `w` bytes remain (a short read). -/
def leDecode : Nat → List Nat → Option (Nat × List Nat)
  | 0, bs => some (0, bs)
  | _ + 1, [] => none
  | w + 1, b :: bs =>
    match leDecode w bs with
    | none => none
    | some (n, rest) => some (b % 256 + 256 * n, rest)

/-! ## Documents and schemas -/

/-- Modelled from the spec: `Document` (`document.go` is not under `src/`):
"`id` (non-empty string, unique in collection), `data` (map of string → JSON
value)"; `data` does not contain the key `_id`. -/
structure Document where
  id : String
  data : List (String × Value)

/-- Modelled from the spec: `Document.GetValue` (`document.go` is not under
`src/`).  The `_id` key resolves to the document id (the auto `_id` index and
queries on `_id` rely on this); every other field is looked up in `data`. -/
def Document.GetValue (d : Document) (field : String) : Option Value :=
  if field = "_id" then some (.str d.id) else lookupA d.data field

/-- `Document.Clone`: a deep clone.  Values are immutable in the pure model, so
cloning is the identity. -/
def Document.Clone (d : Document) : Document := d

/-- Field types of the schema (`schema.go` constants `TypeString`, ...). -/
inductive FieldType where
  | string | number | boolean | object | array | date
  deriving DecidableEq

structure Field where
  type : FieldType
  required : Bool

structure Schema where
  fields : List (String × Field)

/-- Modelled from the spec: a crude RFC3339 shape check ("date" accepts a
string parsable as an RFC3339 timestamp; `ValidateType` is not under `src/`).
No claim exercises dates; only the shape `dddd-dd-ddTdd:dd:dd...` is checked. -/
def isRFC3339 (s : String) : Bool :=
  let cs := s.data
  let digit := fun (c : Char) => c.isDigit
  match cs with
  | y1 :: y2 :: y3 :: y4 :: d1 :: m1 :: m2 :: d2 :: a1 :: a2 :: t :: h1 :: h2 ::
      c1 :: n1 :: n2 :: c2 :: s1 :: s2 :: rest =>
    digit y1 && digit y2 && digit y3 && digit y4 && d1 = '-' && digit m1 &&
      digit m2 && d2 = '-' && digit a1 && digit a2 && t = 'T' && digit h1 &&
      digit h2 && c1 = ':' && digit n1 && digit n2 && c2 = ':' && digit s1 &&
      digit s2 && !rest.isEmpty
  | _ => false

/-- Modelled from the spec: `ValidateType` (§4.2; not under `src/`): "number
accepts any numeric JSON value, date accepts a string parsable as an RFC3339
timestamp, and object/array match the corresponding JSON shape". -/
def ValidateType (v : Value) (t : FieldType) : Bool :=
  match t, v with
  | .string, .str _ => true
  | .number, .num _ => true
  | .boolean, .bool _ => true
  | .object, .obj _ => true
  | .array, .arr _ => true
  | .date, .str s => isRFC3339 s
  | _, _ => false

/-- `Schema.ValidateDocument` (source `ValidateDocument`): every required field
present, every present schema field of the declared type; unknown fields are
allowed.  Returns the Go `error` as `Option String`. -/
def Schema.ValidateDocument (s : Schema) (d : Document) : Option String :=
  go s.fields
where
  go : List (String × Field) → Option String
    | [] => none
    | (fieldName, f) :: t =>
      match d.GetValue fieldName with
      | none => if f.required then some "required field is missing" else go t
      | some v => if ValidateType v f.type then go t else some "field has invalid type"

/-- `Schema.Validate` (source `Validate`): rejects empty field sets, empty
names, the reserved name `_id`; the type check is built into `FieldType`. -/
def Schema.Validate (s : Schema) : Option String :=
  if s.fields.isEmpty then some "schema must have at least one field"
  else go s.fields
where
  go : List (String × Field) → Option String
    | [] => none
    | (fieldName, _) :: t =>
      if fieldName = "" then some "field name cannot be empty"
      else if fieldName = "_id" then some "field name _id is reserved"
      else go t

/-- Validation of a document against the collection schema as `Insert`/`Update`
perform it: skipped when the collection has no schema. -/
def validateDocOpt (schema : Option Schema) (d : Document) : Option String :=
  match schema with
  | none => none
  | some s => s.ValidateDocument d

/-! ## Indexes (`index.go`) -/

structure Index where
  name : String
  fieldName : String
  data : List (String × String)
  deriving DecidableEq

def NewIndex (name fieldName : String) : Index :=
  { name := name, fieldName := fieldName, data := [] }

/-- `Index.AddToIndex`: absent field is a no-op; otherwise store
`fmt("%v") value ↦ doc.ID` (last writer wins).  The Go method always returns a
nil error; the `Except` return models the `error` result type. -/
def Index.AddToIndex (idx : Index) (doc : Document) : Except String Index :=
  match doc.GetValue idx.fieldName with
  | none => .ok idx
  | some v => .ok { idx with data := insertA idx.data (fmtV v) doc.id }

/-- `Index.RemoveFromIndex`: absent field is a no-op; otherwise delete the key
`fmt("%v") value` outright (regardless of which document it maps to). -/
def Index.RemoveFromIndex (idx : Index) (doc : Document) : Except String Index :=
  match doc.GetValue idx.fieldName with
  | none => .ok idx
  | some v => .ok { idx with data := eraseA idx.data (fmtV v) }

/-- `Index.Find`: stringify and look up. -/
def Index.Find (idx : Index) (v : Value) : Option String :=
  lookupA idx.data (fmtV v)

/-! ## Collections (`collection.go` composition + `query.go` operations)

Mutating operations return `Option String × Collection`: the Go `error`
(`none` = `nil`) together with the post-state, so error paths that leave a
partially mutated state are captured. -/

structure Collection where
  name : String
  schema : Option Schema
  documents : List (String × Document)
  indexes : List (String × Index)

/-- Modelled from the spec: `NewCollection` (not under `src/`): fresh maps and
the auto-created `_id` index ("`_id` is auto-created with every new
collection"). -/
def NewCollection (name : String) (schema : Option Schema) : Collection :=
  { name := name, schema := schema, documents := [],
    indexes := [("_id", NewIndex "_id" "_id")] }

/-- `Collection.updateIndexes`: for every index, remove the old image (if any)
then add the new image (if any), propagating the first error. -/
def updateIndexesGo : List (String × Index) → Option Document → Option Document →
    Except String (List (String × Index))
  | [], _, _ => .ok []
  | (n, idx) :: t, o, nw =>
    match (match o with | some d => idx.RemoveFromIndex d | none => .ok idx) with
    | .error e => .error e
    | .ok idx₁ =>
      match (match nw with | some d => idx₁.AddToIndex d | none => .ok idx₁) with
      | .error e => .error e
      | .ok idx₂ =>
        match updateIndexesGo t o nw with
        | .error e => .error e
        | .ok t₂ => .ok ((n, idx₂) :: t₂)

/-- The pure effect of `updateIndexes` on one index. -/
def updateOneIndex (o nw : Option Document) (idx : Index) : Index :=
  let idx₁ := match o with
    | some d =>
      match d.GetValue idx.fieldName with
      | none => idx
      | some v => { idx with data := eraseA idx.data (fmtV v) }
    | none => idx
  match nw with
  | some d =>
    match d.GetValue idx₁.fieldName with
    | none => idx₁
    | some v => { idx₁ with data := insertA idx₁.data (fmtV v) d.id }
  | none => idx₁

/-- `Collection.Insert` (`query.go`): assign the generated id if empty, reject
duplicates, validate against the schema, insert, update indexes (rolling back
the insertion if that fails — a dead branch, see the `AddToIndex` model). -/
def Collection.Insert (c : Collection) (genId : String) (doc : Document) :
    Option String × Collection :=
  let d := if doc.id = "" then { doc with id := genId } else doc
  if (lookupA c.documents d.id).isSome then
    (some "document with this ID already exists", c)
  else
    match validateDocOpt c.schema d with
    | some e => (some e, c)
    | none =>
      let c₁ := { c with documents := insertA c.documents d.id d }
      match updateIndexesGo c₁.indexes none (some d) with
      | .ok idxs => (none, { c₁ with indexes := idxs })
      | .error e => (some e, { c₁ with documents := eraseA c₁.documents d.id })

/-- `Collection.FindByID`: look up and return a clone. -/
def Collection.FindByID (c : Collection) (id : String) : Except String Document :=
  match lookupA c.documents id with
  | none => .error "document not found"
  | some d => .ok d.Clone

/-- The `for key, value := range updates` loop body of `Collection.Update`:
apply updates field by field to the live document, stopping (with the error
flag) the moment the key `_id` is encountered.  The iteration order of the Go
map is the list order, which callers quantify over. -/
def applyUpdates : List (String × Value) → List (String × Value) →
    List (String × Value) × Bool
  | d, [] => (d, false)
  | d, (k, v) :: t => if k = "_id" then (d, true) else applyUpdates (insertA d k v) t

/-- Whether the `updates` iteration hits the reserved key `_id` (the error
flag of `applyUpdates`, which depends only on the updates list). -/
def updFlag : List (String × Value) → Bool
  | [] => false
  | (k, _) :: t => if k = "_id" then true else updFlag t

/-- Whether the key `k` is written by the updates list before the iteration
stops at `_id`. -/
def hasKeyBeforeId : List (String × Value) → String → Bool
  | [], _ => false
  | (k₁, _) :: t, k =>
    if k₁ = "_id" then false else if k₁ = k then true else hasKeyBeforeId t k

/-- `Collection.Update` (`query.go`): clone the pre-image, apply updates to the
live document (so partial updates are already visible in `documents`), then
either fail on `_id` (no rollback — the mutated document stays), fail schema
validation (rollback to the pre-image), or refresh the indexes. -/
def Collection.Update (c : Collection) (id : String)
    (updates : List (String × Value)) : Option String × Collection :=
  match lookupA c.documents id with
  | none => (some "document not found", c)
  | some doc =>
    let oldDoc := doc.Clone
    let applied := applyUpdates doc.data updates
    let doc₂ : Document := { doc with data := applied.1 }
    let cMut := { c with documents := insertA c.documents id doc₂ }
    if applied.2 then
      (some "cannot update _id field", cMut)
    else
      match validateDocOpt c.schema doc₂ with
      | some e => (some e, { cMut with documents := insertA cMut.documents id oldDoc })
      | none =>
        match updateIndexesGo cMut.indexes (some oldDoc) (some doc₂) with
        | .ok idxs => (none, { cMut with indexes := idxs })
        | .error e =>
          (some e, { cMut with documents := insertA cMut.documents id oldDoc })

/-- `Collection.Delete` (`query.go`): update (remove from) all indexes, then
delete from `documents`; on index failure the documents map is left intact. -/
def Collection.Delete (c : Collection) (id : String) : Option String × Collection :=
  match lookupA c.documents id with
  | none => (some "document not found", c)
  | some doc =>
    match updateIndexesGo c.indexes (some doc) none with
    | .error e => (some e, c)
    | .ok idxs =>
      (none, { c with documents := eraseA c.documents id, indexes := idxs })

/-- Build a fresh index from the current documents (`Collection.CreateIndex`
loop). -/
def buildIndexGo : Index → List Document → Except String Index
  | idx, [] => .ok idx
  | idx, d :: t =>
    match idx.AddToIndex d with
    | .error e => .error e
    | .ok idx₂ => buildIndexGo idx₂ t

/-- `Collection.CreateIndex` (`index.go`): reject duplicates, build from the
current documents, install. -/
def Collection.CreateIndex (c : Collection) (indexName fieldName : String) :
    Option String × Collection :=
  if (lookupA c.indexes indexName).isSome then (some "index already exists", c)
  else
    match buildIndexGo (NewIndex indexName fieldName) (c.documents.map Prod.snd) with
    | .error e => (some e, c)
    | .ok idx => (none, { c with indexes := insertA c.indexes indexName idx })

/-- `Collection.DropIndex` (`index.go`). -/
def Collection.DropIndex (c : Collection) (indexName : String) :
    Option String × Collection :=
  if indexName = "_id" then (some "cannot drop the automatic _id index", c)
  else if (lookupA c.indexes indexName).isNone then
    (some "index does not exist", c)
  else (none, { c with indexes := eraseA c.indexes indexName })

/-- `Collection.Count`. -/
def Collection.Count (c : Collection) : Nat := c.documents.length

/-! ## The query engine (`query.go`) -/

structure QueryFilter where
  field : String
  operator : String
  value : Value

structure Query where
  filters : List QueryFilter := []
  limit : Int := 0
  skip : Int := 0

/-- `compareValues` (`query.go`): stringify both operands with `fmt("%v")` and
compare with `strings.Compare` — plain lexicographic comparison, with no
numeric case.  `Ordering.lt/eq/gt` stands for the Go result `<0 / 0 / >0`. -/
def compareValues (a b : Value) : Ordering :=
  compare (fmtV a) (fmtV b)

/-- `matchesFilter` (`query.go`): a document that lacks the field matches no
operator; an operator outside the seven known ones matches nothing. -/
def matchesFilter (doc : Document) (filter : QueryFilter) : Bool :=
  match doc.GetValue filter.field with
  | none => false
  | some value =>
    match filter.operator with
    | "eq" => fmtV value == fmtV filter.value
    | "ne" => fmtV value != fmtV filter.value
    | "gt" => compareValues value filter.value == .gt
    | "gte" => compareValues value filter.value != .lt
    | "lt" => compareValues value filter.value == .lt
    | "lte" => compareValues value filter.value != .gt
    | "in" =>
      match filter.value with
      | .arr items => items.any (fun item => fmtV item == fmtV value)
      | _ => false
    | _ => false

/-- `matchesAllFilters` (`query.go`). -/
def matchesAllFilters (doc : Document) (filters : List QueryFilter) : Bool :=
  filters.all (fun f => matchesFilter doc f)

/-- Outcome of the index-probing loop of `Collection.Find` for an `eq` first
filter: an index hit with a missing key returns the empty result immediately;
a hit whose document exists yields the single candidate; otherwise the loop
falls through to a full scan. -/
inductive FindPath where
  | empty
  | cand (d : Document)
  | scan

/-- The `for _, idx := range c.Indexes` loop of `Collection.Find`.  The list
order of `idxs` is the (random) Go map iteration order. -/
def findCandidates (docs : List Document) (f : QueryFilter) :
    List Index → FindPath
  | [] => .scan
  | idx :: rest =>
    if idx.fieldName = f.field then
      match idx.Find f.value with
      | none => .empty
      | some docID =>
        match docs.find? (fun d => d.id == docID) with
        | some d => .cand d
        | none => findCandidates docs f rest
    else findCandidates docs f rest

/-- The order-independent outcome of the index-probing loop when all covering
indexes agree on the lookup result `r` (a specification-side helper for the
determinism analysis). -/
def candOutcome (docs : List Document) (r : Option String) : FindPath :=
  match r with
  | none => .empty
  | some did =>
    match docs.find? (fun d => d.id == did) with
    | some d => .cand d
    | none => .scan

/-- The `skip`/`limit` post-processing of `Collection.Find`. -/
def applySkipLimit (q : Query) (results : List Document) : List Document :=
  let r₁ :=
    if q.skip > 0 then
      (if q.skip ≥ (results.length : Int) then [] else results.drop q.skip.toNat)
    else results
  if q.limit > 0 ∧ q.limit < (r₁.length : Int) then r₁.take q.limit.toNat else r₁

/-- `Collection.Find` (`query.go`), with the two observable Go map iteration
orders — over `c.Documents` and over `c.Indexes` — made explicit parameters. -/
def Find (docs : List Document) (idxs : List Index) (q : Query) : List Document :=
  let results :=
    match q.filters with
    | [] => docs.map Document.Clone
    | firstFilter :: _ =>
      if firstFilter.operator = "eq" then
        match findCandidates docs firstFilter idxs with
        | .empty => []
        | .cand d =>
          if matchesAllFilters d q.filters then [d.Clone] else []
        | .scan =>
          (docs.filter (fun d => matchesAllFilters d q.filters)).map Document.Clone
      else
        (docs.filter (fun d => matchesAllFilters d q.filters)).map Document.Clone
  applySkipLimit q results

/-! ## Reachable collection states -/

/-- The collection-level logical operations (claim C3's reachability). -/
inductive Op where
  | insert (genId : String) (doc : Document)
  | update (id : String) (updates : List (String × Value))
  | delete (id : String)
  | createIndex (name field : String)
  | dropIndex (name : String)

/-- One operation applied to a collection, keeping the post-state of failed
calls (which the Go methods also leave behind). -/
def Collection.step (c : Collection) : Op → Collection
  | .insert g d => (c.Insert g d).2
  | .update id u => (c.Update id u).2
  | .delete id => (c.Delete id).2
  | .createIndex n f => (c.CreateIndex n f).2
  | .dropIndex n => (c.DropIndex n).2

/-- The state reached from a fresh collection by a sequence of operations. -/
def runOps (name : String) (schema : Option Schema) (ops : List Op) : Collection :=
  ops.foldl Collection.step (NewCollection name schema)

/-- The index key a document contributes to an index on `field`:
`fmt("%v")` of the field's value. -/
def keyOf (d : Document) (field : String) : Option String :=
  (d.GetValue field).map fmtV

/-- Well-formedness of the map model: canonical (sorted) association lists and
`Documents`-map keys agreeing with the documents' ids. -/
def Collection.WF (c : Collection) : Prop :=
  SortedKeys c.documents ∧ SortedKeys c.indexes ∧
    (∀ p ∈ c.documents, p.1 = p.2.id ∧ SortedKeys p.2.data) ∧
    (∀ p ∈ c.indexes, SortedKeys p.2.data)

/-- No two live documents share a stringified value on any indexed field
(key-collision freedom, per index). -/
def Collection.InjKeys (c : Collection) : Prop :=
  ∀ q ∈ c.indexes, ∀ p₁ ∈ c.documents, ∀ p₂ ∈ c.documents,
    (keyOf p₁.2 q.2.fieldName).isSome = true →
    keyOf p₁.2 q.2.fieldName = keyOf p₂.2 q.2.fieldName → p₁.1 = p₂.1

/-- Index agreement: every index maps the stringified field value of every
document possessing the field to that document's id. -/
def Collection.IndexComplete (c : Collection) : Prop :=
  ∀ q ∈ c.indexes, ∀ p ∈ c.documents, ∀ s,
    keyOf p.2 q.2.fieldName = some s → lookupA q.2.data s = some p.2.id

/-- The part of well-formedness preserved by arbitrary operation traces:
canonical (sorted) association lists for the two collection maps and
`documents`-map keys agreeing with the stored documents' ids. -/
def Collection.KeysId (c : Collection) : Prop :=
  SortedKeys c.documents ∧ SortedKeys c.indexes ∧ ∀ p ∈ c.documents, p.1 = p.2.id

/-- `true` iff the operation is not an `update` touching the key `_id` (whose
error path leaves a partially mutated document behind — see claim C1). -/
def Op.noId : Op → Bool
  | .update _ u => u.all (fun p => p.1 ≠ "_id")
  | _ => true

/-! ## Databases and the database manager -/

structure Database where
  name : String
  collections : List (String × Collection)

def NewDatabase (name : String) : Database :=
  { name := name, collections := [] }

/-- `Database.CreateCollection` (`query.go`): reject duplicates, validate a
non-nil schema, install a fresh collection. -/
def Database.CreateCollection (db : Database) (name : String)
    (schema : Option Schema) : Option String × Database :=
  if (lookupA db.collections name).isSome then (some "collection already exists", db)
  else
    match (match schema with | some s => s.Validate | none => none) with
    | some e => (some e, db)
    | none =>
      (none, { db with collections :=
                  insertA db.collections name (NewCollection name schema) })

/-- `Database.DropCollection` (`query.go`). -/
def Database.DropCollection (db : Database) (name : String) :
    Option String × Database :=
  if (lookupA db.collections name).isNone then (some "collection does not exist", db)
  else (none, { db with collections := eraseA db.collections name })

/-- `Database.GetCollection` (`query.go`). -/
def Database.GetCollection (db : Database) (name : String) :
    Except String Collection :=
  match lookupA db.collections name with
  | none => .error "collection does not exist"
  | some c => .ok c

/-- `Database.ListCollections` (`query.go`): a snapshot of the names. -/
def Database.ListCollections (db : Database) : List String :=
  keysA db.collections

structure DatabaseManager where
  databases : List (String × Database)

def NewDatabaseManager : DatabaseManager := { databases := [] }

/-! ## The write-ahead log (spec §4.6)

`wal.go` is not under `src/`; the WAL record layout and the replay dispatch are
modelled from the spec.  A logical WAL entry carries the operation kind, the
database name, and the optional collection / document id / decoded JSON
payload ("the full document for insert/update, the schema for
create_collection, index name and field for create_index"). -/

/-- Modelled from the spec: one logical WAL entry (§4.6), with its payload
already decoded. -/
inductive WALEntry where
  | createDatabase (db : String)
  | deleteDatabase (db : String)
  | createCollection (db coll : String) (schema : Option Schema)
  | createIndex (db coll idxName fieldName : String)
  | insert (db coll : String) (doc : Document)
  | update (db coll : String) (doc : Document)
  | delete (db coll : String) (docId : String)

/-- Apply a function to a named database, a no-op when it is absent. -/
def modifyDB (dm : DatabaseManager) (name : String)
    (f : Database → Database) : DatabaseManager :=
  match lookupA dm.databases name with
  | none => dm
  | some db => { dm with databases := insertA dm.databases name (f db) }

/-- Apply a function to a named collection, a no-op when it is absent. -/
def modifyColl (db : Database) (name : String)
    (f : Collection → Collection) : Database :=
  match lookupA db.collections name with
  | none => db
  | some c => { db with collections := insertA db.collections name (f c) }

/-- Modelled from the spec: replay of one WAL entry against the in-memory
database manager (§4.6: "insert checks existence, update/delete are id-keyed,
and create_* are guarded by existence checks and treated as no-ops if already
present").  Replay invokes the core's public operations (`Collection.Insert`,
`Collection.Update` with the logged document's data, `Collection.Delete`,
`Collection.CreateIndex`, `Database.CreateCollection`), discarding
already-exists / not-found errors; an entry whose target database or
collection is missing is a no-op. -/
def applyEntry (dm : DatabaseManager) : WALEntry → DatabaseManager
  | .createDatabase n =>
    if (lookupA dm.databases n).isSome then dm
    else { dm with databases := insertA dm.databases n (NewDatabase n) }
  | .deleteDatabase n => { dm with databases := eraseA dm.databases n }
  | .createCollection n c sch =>
    modifyDB dm n (fun db => (db.CreateCollection c sch).2)
  | .createIndex n c iN fN =>
    modifyDB dm n (fun db => modifyColl db c (fun coll => (coll.CreateIndex iN fN).2))
  | .insert n c doc =>
    modifyDB dm n (fun db => modifyColl db c (fun coll => (coll.Insert "" doc).2))
  | .update n c doc =>
    modifyDB dm n (fun db => modifyColl db c (fun coll => (coll.Update doc.id doc.data).2))
  | .delete n c did =>
    modifyDB dm n (fun db => modifyColl db c (fun coll => (coll.Delete did).2))

/-- Replay a WAL (a list of entries, in ascending sequence order). -/
def applyWAL (dm : DatabaseManager) (entries : List WALEntry) : DatabaseManager :=
  entries.foldl applyEntry dm

/-- Observation distinguishing database-manager states: every database's
collections with their documents' stringified data. -/
def obsDM (dm : DatabaseManager) :
    List (String × List (String × List (String × List (String × String)))) :=
  dm.databases.map (fun p =>
    (p.1, p.2.collections.map (fun q =>
      (q.1, q.2.documents.map (fun r =>
        (r.1, r.2.data.map (fun s => (s.1, fmtV s.2))))))))

def Database.WF (db : Database) : Prop :=
  SortedKeys db.collections ∧ ∀ p ∈ db.collections, p.2.WF

def DatabaseManager.WF (dm : DatabaseManager) : Prop :=
  SortedKeys dm.databases ∧ ∀ p ∈ dm.databases, p.2.WF

/-! ## Document serialization and the compression codec

`document.go` and the codec are not under `src/`.  The spec (§4.1) fixes their
contract: serialization promotes `_id` next to the `data` entries and
deserialization extracts it back; the codec is a lossless byte codec whose
algorithm is implementation-defined.  The byte-level JSON syntax is abstracted
to a concrete injective length-prefixed encoding, and the codec is modelled as
the identity (a lossless codec); no claim depends on the concrete byte syntax
or compression ratio. -/

/-- A character as three bytes (code points are below `2 ^ 21`). -/
def encChar (c : Char) : List Nat :=
  [c.toNat % 256, c.toNat / 256 % 256, c.toNat / 65536]

/-- Length-prefixed string encoding. -/
def encString (s : String) : List Nat :=
  leBytes 4 s.length ++ (s.data.map encChar).flatten

/-- Sign byte plus eight magnitude bytes. -/
def encInt (n : Int) : List Nat :=
  if 0 ≤ n then 0 :: leBytes 8 n.toNat else 1 :: leBytes 8 (-n).toNat

mutual

/-- Modelled from the spec: tagged byte encoding of a JSON value. -/
def encValue : Value → List Nat
  | .null => [0]
  | .bool false => [1, 0]
  | .bool true => [1, 1]
  | .num n => 2 :: encInt n
  | .str s => 3 :: encString s
  | .arr xs => 4 :: (leBytes 4 xs.length ++ encValueList xs)
  | .obj kvs => 5 :: (leBytes 4 kvs.length ++ encValueObj kvs)

def encValueList : List Value → List Nat
  | [] => []
  | x :: xs => encValue x ++ encValueList xs

def encValueObj : List (String × Value) → List Nat
  | [] => []
  | (k, v) :: xs => encString k ++ encValue v ++ encValueObj xs

end

/-- Modelled from the spec: `Document.MarshalJSON` — "`_id` promoted to a
top-level field alongside the `data` entries" becomes: the id first, then the
data entries. -/
def Document.MarshalJSON (d : Document) : List Nat :=
  encString d.id ++ leBytes 4 d.data.length ++
    (d.data.map (fun p => encString p.1 ++ encValue p.2)).flatten

/-- Decode `n` characters of three bytes each. -/
def decChars : Nat → List Nat → Option (List Char × List Nat)
  | 0, bs => some ([], bs)
  | n + 1, b0 :: b1 :: b2 :: bs =>
    match decChars n bs with
    | some (cs, rest) =>
      some (Char.ofNat (b0 % 256 + 256 * (b1 % 256) + 65536 * b2) :: cs, rest)
    | none => none
  | _ + 1, _ => none

def decString (bs : List Nat) : Option (String × List Nat) :=
  match leDecode 4 bs with
  | none => none
  | some (n, rest) =>
    match decChars n rest with
    | none => none
    | some (cs, rest₂) => some (String.mk cs, rest₂)

def decInt (bs : List Nat) : Option (Int × List Nat) :=
  match bs with
  | 0 :: rest =>
    match leDecode 8 rest with
    | none => none
    | some (n, rest₂) => some ((n : Int), rest₂)
  | 1 :: rest =>
    match leDecode 8 rest with
    | none => none
    | some (n, rest₂) => some (-(n : Int), rest₂)
  | _ => none

mutual

/-- Fueled decoder for the tagged value encoding. -/
def decValue : Nat → List Nat → Option (Value × List Nat)
  | 0, _ => none
  | _ + 1, 0 :: bs => some (.null, bs)
  | _ + 1, 1 :: 0 :: bs => some (.bool false, bs)
  | _ + 1, 1 :: 1 :: bs => some (.bool true, bs)
  | _ + 1, 2 :: bs =>
    match decInt bs with
    | none => none
    | some (n, rest) => some (.num n, rest)
  | _ + 1, 3 :: bs =>
    match decString bs with
    | none => none
    | some (s, rest) => some (.str s, rest)
  | fuel + 1, 4 :: bs =>
    match leDecode 4 bs with
    | none => none
    | some (n, rest) =>
      match decValues fuel n rest with
      | none => none
      | some (xs, rest₂) => some (.arr xs, rest₂)
  | fuel + 1, 5 :: bs =>
    match leDecode 4 bs with
    | none => none
    | some (n, rest) =>
      match decPairs fuel n rest with
      | none => none
      | some (kvs, rest₂) => some (.obj kvs, rest₂)
  | _ + 1, _ => none

/-- Fueled decoder for a counted list of values. -/
def decValues : Nat → Nat → List Nat → Option (List Value × List Nat)
  | _, 0, bs => some ([], bs)
  | 0, _ + 1, _ => none
  | fuel + 1, n + 1, bs =>
    match decValue fuel bs with
    | none => none
    | some (v, rest) =>
      match decValues fuel n rest with
      | none => none
      | some (xs, rest₂) => some (v :: xs, rest₂)

/-- Fueled decoder for a counted list of key-value pairs. -/
def decPairs : Nat → Nat → List Nat → Option (List (String × Value) × List Nat)
  | _, 0, bs => some ([], bs)
  | 0, _ + 1, _ => none
  | fuel + 1, n + 1, bs =>
    match decString bs with
    | none => none
    | some (k, rest) =>
      match decValue fuel rest with
      | none => none
      | some (v, rest₂) =>
        match decPairs fuel n rest₂ with
        | none => none
        | some (kvs, rest₃) => some ((k, v) :: kvs, rest₃)

end

/-- Modelled from the spec: `Document.UnmarshalJSON` — "`_id` is extracted back
into `id` and the remaining keys form `data`". -/
def Document.UnmarshalJSON (bs : List Nat) : Option Document :=
  match decString bs with
  | none => none
  | some (id, rest) =>
    match leDecode 4 rest with
    | none => none
    | some (n, rest₂) =>
      match decPairs (rest₂.length + 1) n rest₂ with
      | none => none
      | some (kvs, _) => some { id := id, data := kvs }

/-- Modelled from the spec: the codec, "`compress(bytes) → bytes` ...
general-purpose lossless"; modelled as the identity codec.  The Go function
returns `([]byte, error)`. -/
def Compress (bs : List Nat) : Except String (List Nat) := .ok bs

/-- Modelled from the spec: inverse codec, also the identity. -/
def Decompress (bs : List Nat) : Except String (List Nat) := .ok bs

/-! ## The binary collection file (`index.go`, file-format half) -/

/-- Magic number for collection data files, `"CACH"`. -/
def CollectionMagic : Nat := 0x43414348

def BinaryFormatVersion : Nat := 1

/-- magic(4) + version(2) + flags(2). -/
def HeaderSize : Nat := 8

/-- offset(8) + size(4) + compressed_size(4) + checksum(4). -/
def DocEntryHeaderSize : Nat := 20

structure BinaryHeader where
  magic : Nat
  version : Nat
  flags : Nat
  deriving DecidableEq

/-- The 8 header bytes `writeHeader` produces (flags bit 0 set: compressed). -/
def headerBytes : List Nat :=
  leBytes 4 CollectionMagic ++ leBytes 2 BinaryFormatVersion ++ leBytes 2 1

structure DocumentEntry where
  offset : Nat
  size : Nat
  compressedSize : Nat
  checksum : Nat
  deriving DecidableEq

/-- The serializable format of an index (`IndexData`). -/
structure IndexData where
  name : String
  fieldName : String
  data : List (String × String)
  deriving DecidableEq

def Index.Serialize (idx : Index) : IndexData :=
  { name := idx.name, fieldName := idx.fieldName, data := idx.data }

/-- `LoadIndexFromDisk`: `NewIndex` then `Deserialize`. -/
def indexOfData (d : IndexData) : Index :=
  { name := d.name, fieldName := d.fieldName, data := d.data }

/-- The on-disk state of one collection directory
`<root>/<db>/<coll>/`: `collection.meta.json`, `collection.data`,
`collection.idx`, `indexes/<name>.json`, legacy `documents.json`. -/
structure CollMeta where
  name : String
  schema : Option Schema
  indexes : List (String × String)
  format : String

structure DiskColl where
  meta : Option CollMeta := none
  dataFile : Option (List Nat) := none
  idxFile : Option (List Nat) := none
  indexFiles : List (String × IndexData) := []
  docsJson : Option (List Document) := none

/-- `SaveOffsetIndex`: the byte serialization of `collection.idx` — the 4-byte
entry count, then for each entry the length-prefixed document id followed by
the little-endian offset (8 bytes) and size, compressed size and checksum
(4 bytes each). -/
def SaveOffsetIndex (entries : List (String × DocumentEntry)) : List Nat :=
  leBytes 4 entries.length ++
    (entries.map (fun p => encString p.1 ++ leBytes 8 p.2.offset ++
      leBytes 4 p.2.size ++ leBytes 4 p.2.compressedSize ++
      leBytes 4 p.2.checksum)).flatten

/-- One iteration of the entry loop of `LoadOffsetIndex`: document id, then
offset, size, compressed size, checksum; `none` on any short read. -/
def parseIndexEntry (bs : List Nat) :
    Option ((String × DocumentEntry) × List Nat) :=
  match decString bs with
  | none => none
  | some (id, r₁) =>
    match leDecode 8 r₁ with
    | none => none
    | some (off, r₂) =>
      match leDecode 4 r₂ with
      | none => none
      | some (sz, r₃) =>
        match leDecode 4 r₃ with
        | none => none
        | some (csz, r₄) =>
          match leDecode 4 r₄ with
          | none => none
          | some (ck, r₅) =>
            some ((id, { offset := off, size := sz, compressedSize := csz, checksum := ck }), r₅)

/-- The entry loop of `LoadOffsetIndex`: read exactly the declared number of
entries, later duplicate ids overwriting earlier ones as in the Go map. -/
def parseIndexEntries : Nat → List Nat → List (String × DocumentEntry) →
    Option (List (String × DocumentEntry))
  | 0, _, acc => some acc
  | n + 1, bs, acc =>
    match parseIndexEntry bs with
    | none => none
    | some (p, rest) => parseIndexEntries n rest (insertA acc p.1 p.2)

/-- Parsing the bytes of a present `collection.idx`: an empty file reads as
the empty index (the entry-count read hits a clean EOF), a nonempty file must
supply the 4-byte entry count and then the declared number of well-formed
entries, and any short read is an error; trailing bytes after the declared
entries are ignored, as in the source. -/
def parseOffsetIndex : List Nat → Except String (List (String × DocumentEntry))
  | [] => .ok []
  | bs =>
    match leDecode 4 bs with
    | none => .error "failed to read entry count"
    | some (n, rest) =>
      match parseIndexEntries n rest [] with
      | none => .error "failed to read index entry"
      | some l => .ok l

/-- `LoadOffsetIndex`: a missing `collection.idx` loads as the empty index; a
present file is parsed and a malformed one is an error. -/
def LoadOffsetIndex (d : DiskColl) :
    Except String (List (String × DocumentEntry)) :=
  match d.idxFile with
  | none => .ok []
  | some bs => parseOffsetIndex bs

structure BinaryCollectionWriter where
  fileBytes : List Nat
  offset : Nat
  index : List (String × DocumentEntry)

/-- `NewBinaryCollectionWriter`: open-or-create `collection.data`
(`O_CREATE|O_RDWR`, no truncation), write the header only when the file is
new, position the append offset at the end, and load the pre-existing
`collection.idx` into the writer's index when it parses — a failed load keeps
the fresh empty index (the source only adopts the loaded index
`if err == nil`). -/
def NewBinaryCollectionWriter (d : DiskColl) : BinaryCollectionWriter :=
  let existing := d.dataFile.getD []
  let idx := match LoadOffsetIndex d with | .ok i => i | .error _ => []
  if existing.length = 0 then
    { fileBytes := headerBytes, offset := HeaderSize, index := idx }
  else
    { fileBytes := existing, offset := existing.length, index := idx }

/-- `BinaryCollectionWriter.WriteDocument`: serialize, compress, checksum
the compressed bytes, append the 20-byte record header plus payload, record
the offset-index entry. -/
def BinaryCollectionWriter.WriteDocument (w : BinaryCollectionWriter)
    (doc : Document) : BinaryCollectionWriter :=
  let jsonData := doc.MarshalJSON
  match Compress jsonData with
  | .error _ => w
  | .ok compressedData =>
    let checksum := crc32 compressedData
    let entryBuf := leBytes 8 w.offset ++ leBytes 4 jsonData.length ++
      leBytes 4 compressedData.length ++ leBytes 4 checksum
    { fileBytes := w.fileBytes ++ entryBuf ++ compressedData,
      offset := w.offset + DocEntryHeaderSize + compressedData.length,
      index := insertA w.index doc.id
        { offset := w.offset, size := jsonData.length % 2 ^ 32,
          compressedSize := compressedData.length % 2 ^ 32, checksum := checksum } }

/-- `BinaryCollectionWriter.Flush` (and `Close`): sync `collection.data` and
save the writer's offset index as `collection.idx`. -/
def BinaryCollectionWriter.Flush (w : BinaryCollectionWriter) (d : DiskColl) :
    DiskColl :=
  { d with dataFile := some w.fileBytes, idxFile := some (SaveOffsetIndex w.index) }

/-- `readHeader`: an 8-byte read at offset 0 (`ReadAt` fails on short files). -/
def readHeader (bytes : List Nat) : Option BinaryHeader :=
  if bytes.length < HeaderSize then none
  else
    match leDecode 4 bytes with
    | none => none
    | some (magic, r₁) =>
      match leDecode 2 r₁ with
      | none => none
      | some (version, r₂) =>
        match leDecode 2 r₂ with
        | none => none
        | some (flags, _) => some { magic := magic, version := version, flags := flags }

/-- `NewBinaryCollectionReader`: fail when `collection.data` is absent, read
and verify the header (only the magic number is compared — the version field
is read but never checked), then load the offset index, propagating a failed
load of a malformed `collection.idx` as an error. -/
def NewBinaryCollectionReader (d : DiskColl) :
    Except String (List Nat × List (String × DocumentEntry)) :=
  match d.dataFile with
  | none => .error "collection data file does not exist"
  | some bytes =>
    match readHeader bytes with
    | none => .error "failed to read header"
    | some h =>
      if h.magic ≠ CollectionMagic then .error "invalid magic number"
      else
        match LoadOffsetIndex d with
        | .error _ => .error "failed to load index"
        | .ok idx => .ok (bytes, idx)

/-- `BinaryCollectionReader.ReadDocument`: look up the offset-index entry, read
header+payload at the recorded offset, verify CRC32 of the stored payload
against the entry's checksum *before* decompressing, then decompress and
unmarshal. -/
def ReadDocument (bytes : List Nat) (idx : List (String × DocumentEntry))
    (docID : String) : Except String Document :=
  match lookupA idx docID with
  | none => .error "document not found"
  | some entry =>
    if bytes.length < entry.offset + DocEntryHeaderSize + entry.compressedSize then
      .error "failed to read document data"
    else
      let buf := (bytes.drop entry.offset).take (DocEntryHeaderSize + entry.compressedSize)
      let compressedData := buf.drop DocEntryHeaderSize
      if crc32 compressedData ≠ entry.checksum then .error "checksum mismatch"
      else
        match Decompress compressedData with
        | .error _ => .error "failed to decompress document"
        | .ok jsonData =>
          match Document.UnmarshalJSON jsonData with
          | none => .error "failed to unmarshal document"
          | some doc => .ok doc

/-- `BinaryCollectionReader.ReadAllDocuments`: read every id in the offset
index, failing on the first error. -/
def ReadAllDocuments (bytes : List Nat) (idx : List (String × DocumentEntry)) :
    Except String (List Document) :=
  go idx
where
  go : List (String × DocumentEntry) → Except String (List Document)
    | [] => .ok []
    | (docID, _) :: t =>
      match ReadDocument bytes idx docID with
      | .error e => .error e
      | .ok doc =>
        match go t with
        | .error e => .error e
        | .ok docs => .ok (doc :: docs)

/-- Total wrapper of `Index.AddToIndex` (whose error is always nil). -/
def Index.addP (idx : Index) (d : Document) : Index :=
  match idx.AddToIndex d with
  | .ok i => i
  | .error _ => idx

/-- `StorageManager.SaveCollection` with the default binary format: write
`collection.meta.json`, append the in-memory documents through a fresh
`BinaryCollectionWriter`, flush (rewriting `collection.idx` from the writer's
merged index), and snapshot every in-memory index to
`indexes/<name>.json`. -/
def SaveCollection (d : DiskColl) (coll : Collection) : DiskColl :=
  let meta : CollMeta :=
    { name := coll.name, schema := coll.schema,
      indexes := coll.indexes.map (fun p => (p.1, p.2.fieldName)),
      format := "binary" }
  let d₁ := { d with meta := some meta }
  let w := (coll.documents.map Prod.snd).foldl
    BinaryCollectionWriter.WriteDocument (NewBinaryCollectionWriter d₁)
  let d₂ := w.Flush d₁
  let snaps :=
    coll.indexes.foldl (fun acc p => insertA acc p.2.name p.2.Serialize)
      d₂.indexFiles
  { d₂ with indexFiles := snaps }

/-- The index-loading tail of `LoadCollection` (binary branch): overlay the
persisted index snapshots over the fresh collection's indexes, and rebuild the
`_id` index from the documents when no `_id` snapshot existed. -/
def loadIndexesInto (coll : Collection) (d : DiskColl) : Collection :=
  let overlaid :=
    d.indexFiles.foldl (fun m p => insertA m p.1 (indexOfData p.2)) coll.indexes
  let coll₂ := { coll with indexes := overlaid }
  if (lookupA d.indexFiles "_id").isSome then coll₂
  else
    let idIdx := (lookupA coll₂.indexes "_id").getD (NewIndex "_id" "_id")
    let idIdx₂ := (coll₂.documents.map Prod.snd).foldl Index.addP idIdx
    { coll₂ with indexes := insertA coll₂.indexes "_id" idIdx₂ }

/-- `StorageManager.LoadCollection`: read the metadata (format defaults to
json), then either the binary path — reader (absent data file means an empty
collection), `ReadAllDocuments`, persisted index overlay — or the legacy JSON
path rebuilding indexes from the metadata's name→field map. -/
def LoadCollection (d : DiskColl) : Except String Collection :=
  match d.meta with
  | none => .error "failed to load collection metadata"
  | some meta =>
    let format := if meta.format = "" then "json" else meta.format
    let coll := NewCollection meta.name meta.schema
    if format = "binary" then
      match d.dataFile with
      | none => .ok (loadIndexesInto coll d)
      | some _ =>
        match NewBinaryCollectionReader d with
        | .error e => .error e
        | .ok (bytes, idx) =>
          match ReadAllDocuments bytes idx with
          | .error e => .error e
          | .ok docs =>
            let dmap := docs.foldl (fun m dd => insertA m dd.id dd) coll.documents
            let coll₁ := { coll with documents := dmap }
            .ok (loadIndexesInto coll₁ d)
    else
      let docs := d.docsJson.getD []
      let dmap := docs.foldl (fun m dd => insertA m dd.id dd) coll.documents
      let coll₁ := { coll with documents := dmap }
      .ok (meta.indexes.foldl
        (fun c p =>
          if p.1 = "_id" then
            let idIdx := (lookupA c.indexes "_id").getD (NewIndex "_id" "_id")
            let rebuilt := (c.documents.map Prod.snd).foldl Index.addP idIdx
            { c with indexes := insertA c.indexes "_id" rebuilt }
          else
            let built :=
              (c.documents.map Prod.snd).foldl Index.addP (NewIndex p.1 p.2)
            { c with indexes := insertA c.indexes p.1 built })
        coll₁)

/-- The on-disk state of one database directory. -/
structure DiskDB where
  meta : Option String := none
  colls : List (String × DiskColl) := []

/-- `StorageManager.SaveDatabase`: write `db.meta.json` then save every
collection into its directory. -/
def SaveDatabase (disk : DiskDB) (db : Database) : DiskDB :=
  let d₁ := { disk with meta := some db.name }
  let saved :=
    db.collections.foldl
      (fun m p =>
        insertA m p.2.name (SaveCollection ((lookupA m p.2.name).getD {}) p.2))
      d₁.colls
  { d₁ with colls := saved }

/-- `StorageManager.LoadDatabase`: load every collection subdirectory. -/
def LoadDatabase (disk : DiskDB) (dbName : String) : Except String Database :=
  go disk.colls (NewDatabase dbName)
where
  go : List (String × DiskColl) → Database → Except String Database
    | [], db => .ok db
    | (_, dc) :: t, db =>
      match LoadCollection dc with
      | .error e => .error e
      | .ok coll =>
        go t { db with collections := insertA db.collections coll.name coll }

/-! ## Lemmas about the map model -/

theorem charListLt_irrefl (l : List Char) : charListLt l l = false := by
  induction l with
  | nil => rfl
  | cons a as ih => simp [charListLt, ih]

theorem strLt_irrefl (a : String) : strLt a a = false := charListLt_irrefl a.data

theorem charListLt_trans (a b c : List Char) (h₁ : charListLt a b = true)
    (h₂ : charListLt b c = true) : charListLt a c = true := by
  induction a generalizing b c with
  | nil =>
    cases c with
    | nil =>
      cases b with
      | nil => exact h₁
      | cons bh bt => simp [charListLt] at h₂
    | cons ch ct => rfl
  | cons x xs ih =>
    cases b with
    | nil => simp [charListLt] at h₁
    | cons y ys =>
      cases c with
      | nil => simp [charListLt] at h₂
      | cons z zs =>
        simp only [charListLt] at h₁ h₂ ⊢
        rcases Nat.lt_trichotomy x.toNat y.toNat with hxy | hxy | hxy
        · rcases Nat.lt_trichotomy y.toNat z.toNat with hyz | hyz | hyz
          · simp [Nat.lt_trans hxy hyz]
          · have : x.toNat < z.toNat := by omega
            simp [this]
          · have h4 : ¬ y.toNat < z.toNat := by omega
            simp [h4, hyz] at h₂
        · have h5 : ¬ x.toNat < y.toNat := by omega
          have h6 : ¬ y.toNat < x.toNat := by omega
          simp only [h5, h6, if_false, if_neg] at h₁
          rcases Nat.lt_trichotomy y.toNat z.toNat with hyz | hyz | hyz
          · have : x.toNat < z.toNat := by omega
            simp [this]
          · have h7 : ¬ x.toNat < z.toNat := by omega
            have h8 : ¬ z.toNat < x.toNat := by omega
            have h9 : ¬ y.toNat < z.toNat := by omega
            have h10 : ¬ z.toNat < y.toNat := by omega
            simp only [h9, h10, if_false, if_neg] at h₂
            simp only [h7, h8, if_false, if_neg]
            exact ih ys zs h₁ h₂
          · have h4 : ¬ y.toNat < z.toNat := by omega
            simp [h4, hyz] at h₂
        · have h5 : ¬ x.toNat < y.toNat := by omega
          simp [h5, hxy] at h₁

theorem strLt_trans (a b c : String) (h₁ : strLt a b = true)
    (h₂ : strLt b c = true) : strLt a c = true :=
  charListLt_trans a.data b.data c.data h₁ h₂

theorem charListLt_conn (a b : List Char) (h₁ : charListLt a b = false)
    (h₂ : charListLt b a = false) : a = b := by
  induction a generalizing b with
  | nil =>
    cases b with
    | nil => rfl
    | cons bh bt => simp [charListLt] at h₁
  | cons x xs ih =>
    cases b with
    | nil => simp [charListLt] at h₂
    | cons y ys =>
      simp only [charListLt] at h₁ h₂
      rcases Nat.lt_trichotomy x.toNat y.toNat with hxy | hxy | hxy
      · simp [hxy] at h₁
      · have h5 : ¬ x.toNat < y.toNat := by omega
        have h6 : ¬ y.toNat < x.toNat := by omega
        simp only [h5, h6, if_false, if_neg] at h₁ h₂
        have hx : x = y := Char.eq_of_val_eq (UInt32.ext hxy)
        rw [hx, ih ys h₁ h₂]
      · simp [hxy] at h₂

theorem strLt_conn (a b : String) (h₁ : strLt a b = false)
    (h₂ : strLt b a = false) : a = b := by
  cases a with
  | mk da =>
    cases b with
    | mk db =>
      rw [charListLt_conn da db h₁ h₂]

theorem strLt_ne (a b : String) (h : strLt a b = true) : a ≠ b := by
  intro he
  subst he
  rw [strLt_irrefl a] at h
  exact Bool.false_ne_true h

theorem strLt_of_not (a b : String) (h : ¬ strLt a b = true) (hne : a ≠ b) :
    strLt b a = true := by
  cases hc : strLt b a
  · exact absurd (strLt_conn a b (Bool.not_eq_true _ ▸ h) hc) hne
  · rfl

@[simp] theorem lookupA_nil (k : String) : lookupA ([] : List (String × β)) k = none := rfl

theorem lookupA_cons (k' : String) (v' : β) (t : List (String × β)) (k : String) :
    lookupA ((k', v') :: t) k = if k' = k then some v' else lookupA t k := rfl

@[simp] theorem lookupA_insertA_self (l : List (String × β)) (k : String) (v : β) :
    lookupA (insertA l k v) k = some v := by
  induction l with
  | nil => simp [insertA, lookupA]
  | cons h t ih =>
    obtain ⟨k', v'⟩ := h
    by_cases hk : k = k'
    · simp [insertA, hk, lookupA]
    · by_cases hlt : strLt k k' = true
      · simp [insertA, hk, hlt, lookupA]
      · have hk2 : k' ≠ k := fun h => hk h.symm
        simp [insertA, hk, hlt, lookupA, hk2, ih]

@[simp] theorem lookupA_insertA_ne (l : List (String × β)) (k k₂ : String) (v : β)
    (h : k₂ ≠ k) : lookupA (insertA l k v) k₂ = lookupA l k₂ := by
  have h2 : ¬ k = k₂ := fun hh => h hh.symm
  induction l with
  | nil => simp [insertA, lookupA, h2]
  | cons hd t ih =>
    obtain ⟨k', v'⟩ := hd
    by_cases hk : k = k'
    · subst hk
      simp [insertA, lookupA, h2]
    · by_cases hlt : strLt k k' = true
      · simp [insertA, hk, hlt, lookupA, h2]
      · simp [insertA, hk, hlt, lookupA, ih]

@[simp] theorem lookupA_eraseA_ne (l : List (String × β)) (k k₂ : String)
    (h : k₂ ≠ k) : lookupA (eraseA l k) k₂ = lookupA l k₂ := by
  induction l with
  | nil => simp [eraseA]
  | cons hd t ih =>
    obtain ⟨k', v'⟩ := hd
    by_cases hk : k' = k
    · subst hk
      have h2 : ¬ k' = k₂ := fun hh => h hh.symm
      simp [eraseA, lookupA, h2]
    · simp [eraseA, hk, lookupA, ih]

theorem lookupA_none_of_sorted_lt (l : List (String × β)) (k : String)
    (hs : SortedKeys l) (hlt : ∀ p ∈ l, strLt k p.1 = true) : lookupA l k = none := by
  induction l with
  | nil => rfl
  | cons hd t ih =>
    obtain ⟨k', v'⟩ := hd
    have h1 : strLt k k' = true := hlt (k', v') (List.mem_cons_self _ _)
    have : k' ≠ k := fun h => strLt_ne k k' h1 h.symm
    simp only [lookupA, this, if_false]
    exact ih (List.Pairwise.of_cons hs) (fun p hp => hlt p (List.mem_cons_of_mem _ hp))

@[simp] theorem lookupA_eraseA_self (l : List (String × β)) (k : String)
    (hs : SortedKeys l) : lookupA (eraseA l k) k = none := by
  induction l with
  | nil => rfl
  | cons hd t ih =>
    obtain ⟨k', v'⟩ := hd
    by_cases hk : k' = k
    · subst hk
      simp only [eraseA, if_pos rfl]
      apply lookupA_none_of_sorted_lt _ _ (List.Pairwise.of_cons hs)
      intro p hp
      exact (List.pairwise_cons.mp hs).1 p hp
    · simp [eraseA, hk, lookupA, ih (List.Pairwise.of_cons hs)]

/-- Membership in `insertA` decomposes into the new pair or an old member. -/
theorem mem_insertA (l : List (String × β)) (k : String) (v : β) (p : String × β)
    (hp : p ∈ insertA l k v) : p = (k, v) ∨ p ∈ l := by
  induction l with
  | nil =>
    simp only [insertA, List.mem_singleton] at hp
    exact Or.inl hp
  | cons hd t ih =>
    obtain ⟨k', v'⟩ := hd
    by_cases h2 : k = k'
    · rw [insertA, if_pos h2] at hp
      rcases List.mem_cons.mp hp with h | h
      · exact Or.inl h
      · exact Or.inr (List.mem_cons_of_mem _ h)
    · by_cases h3 : strLt k k' = true
      · rw [insertA, if_neg h2, if_pos h3] at hp
        rcases List.mem_cons.mp hp with h | h
        · exact Or.inl h
        · exact Or.inr h
      · rw [insertA, if_neg h2, if_neg h3] at hp
        rcases List.mem_cons.mp hp with h | h
        · exact Or.inr (List.mem_cons.mpr (Or.inl h))
        · rcases ih h with h4 | h4
          · exact Or.inl h4
          · exact Or.inr (List.mem_cons_of_mem _ h4)

theorem mem_eraseA (l : List (String × β)) (k : String) (p : String × β)
    (hp : p ∈ eraseA l k) : p ∈ l := by
  induction l with
  | nil => simp [eraseA] at hp
  | cons hd t ih =>
    obtain ⟨k2, v2⟩ := hd
    by_cases h2 : k2 = k
    · rw [eraseA, if_pos h2] at hp
      exact List.mem_cons_of_mem _ hp
    · rw [eraseA, if_neg h2] at hp
      rcases List.mem_cons.mp hp with h | h
      · exact List.mem_cons.mpr (Or.inl h)
      · exact List.mem_cons_of_mem _ (ih h)

theorem sortedKeys_insertA (l : List (String × β)) (k : String) (v : β)
    (hs : SortedKeys l) : SortedKeys (insertA l k v) := by
  induction l with
  | nil => simp [insertA]
  | cons hd t ih =>
    obtain ⟨k', v'⟩ := hd
    have hh := List.pairwise_cons.mp hs
    by_cases hk : k = k'
    · rw [insertA, if_pos hk]
      subst hk
      exact List.pairwise_cons.mpr ⟨hh.1, hh.2⟩
    · by_cases hlt : strLt k k' = true
      · rw [insertA, if_neg hk, if_pos hlt]
        refine List.pairwise_cons.mpr ⟨?_, hs⟩
        intro p hp
        rcases List.mem_cons.mp hp with h | h
        · rw [h]
          exact hlt
        · exact strLt_trans _ _ _ hlt (hh.1 p h)
      · have hgt : strLt k' k = true := strLt_of_not k k' hlt hk
        rw [insertA, if_neg hk, if_neg hlt]
        refine List.pairwise_cons.mpr ⟨?_, ih hh.2⟩
        intro p hp
        rcases mem_insertA t k v p hp with h | h
        · rw [h]
          exact hgt
        · exact hh.1 p h

theorem sortedKeys_eraseA (l : List (String × β)) (k : String)
    (hs : SortedKeys l) : SortedKeys (eraseA l k) := by
  induction l with
  | nil => simp [eraseA]
  | cons hd t ih =>
    obtain ⟨k', v'⟩ := hd
    have hh := List.pairwise_cons.mp hs
    by_cases hk : k' = k
    · rw [eraseA, if_pos hk]
      exact hh.2
    · rw [eraseA, if_neg hk]
      refine List.pairwise_cons.mpr ⟨?_, ih hh.2⟩
      intro p hp
      exact hh.1 p (mem_eraseA t k p hp)

theorem mem_of_lookupA (l : List (String × β)) (k : String) (v : β)
    (h : lookupA l k = some v) : (k, v) ∈ l := by
  induction l with
  | nil => simp [lookupA] at h
  | cons hd t ih =>
    obtain ⟨k', v'⟩ := hd
    rw [lookupA_cons] at h
    by_cases hk : k' = k
    · rw [if_pos hk] at h
      subst hk
      rw [← Option.some.inj h]
      exact List.mem_cons_self _ _
    · rw [if_neg hk] at h
      exact List.mem_cons_of_mem _ (ih h)

theorem lookupA_of_mem (l : List (String × β)) (k : String) (v : β)
    (hs : SortedKeys l) (h : (k, v) ∈ l) : lookupA l k = some v := by
  induction l with
  | nil => simp at h
  | cons hd t ih =>
    obtain ⟨k', v'⟩ := hd
    have hh := List.pairwise_cons.mp hs
    rcases List.mem_cons.mp h with h1 | h1
    · have h2 : k = k' := congrArg Prod.fst h1
      have h3 : v = v' := congrArg Prod.snd h1
      rw [lookupA_cons, if_pos h2.symm, h3]
    · have hne : k' ≠ k := by
        intro he
        subst he
        have := hh.1 (k', v) h1
        rw [strLt_irrefl] at this
        exact Bool.false_ne_true this
      rw [lookupA_cons, if_neg hne]
      exact ih hh.2 h1

/-- Extensionality for canonically sorted association lists: equal lookups at
every key means structural equality. -/
theorem ext_sorted (l₁ l₂ : List (String × β)) (h₁ : SortedKeys l₁)
    (h₂ : SortedKeys l₂) (h : ∀ k, lookupA l₁ k = lookupA l₂ k) : l₁ = l₂ := by
  induction l₁ generalizing l₂ with
  | nil =>
    cases l₂ with
    | nil => rfl
    | cons hd t =>
      obtain ⟨k, v⟩ := hd
      have := h k
      simp [lookupA] at this
  | cons hd t ih =>
    obtain ⟨k, v⟩ := hd
    cases l₂ with
    | nil =>
      have := h k
      simp [lookupA] at this
    | cons hd2 t2 =>
      obtain ⟨k2, v2⟩ := hd2
      have hh1 := List.pairwise_cons.mp h₁
      have hh2 := List.pairwise_cons.mp h₂
      -- the two head keys must be equal: each is the strictly smallest key
      have hk : k = k2 := by
        by_contra hne
        by_cases hlt : strLt k k2 = true
        · have := h k
          have hnone : lookupA t2 k = none := by
            apply lookupA_none_of_sorted_lt _ _ hh2.2
            intro p hp
            exact strLt_trans _ _ _ hlt (hh2.1 p hp)
          have hne2 : k2 ≠ k := fun he => hne he.symm
          simp [lookupA, hne2, hnone] at this
        · have hgt : strLt k2 k = true := strLt_of_not k k2 hlt hne
          have := h k2
          have hnone : lookupA t k2 = none := by
            apply lookupA_none_of_sorted_lt _ _ hh1.2
            intro p hp
            exact strLt_trans _ _ _ hgt (hh1.1 p hp)
          have hne2 : k ≠ k2 := hne
          simp [lookupA, hne2, hnone] at this
      subst hk
      have hv : v = v2 := by
        have := h k
        simpa [lookupA] using this
      subst hv
      have : t = t2 := by
        apply ih t2 hh1.2 hh2.2
        intro k'
        by_cases hk' : k = k'
        · subst hk'
          rw [lookupA_none_of_sorted_lt t k hh1.2 (fun p hp => hh1.1 p hp),
            lookupA_none_of_sorted_lt t2 k hh2.2 (fun p hp => hh2.1 p hp)]
        · have := h k'
          simpa [lookupA, hk'] using this
      rw [this]

/-- Replacing a present binding by the identical value is a no-op. -/
theorem insertA_self (l : List (String × β)) (k : String) (v : β)
    (hs : SortedKeys l) (h : lookupA l k = some v) : insertA l k v = l := by
  apply ext_sorted _ _ (sortedKeys_insertA _ _ _ hs) hs
  intro k'
  by_cases hk : k' = k
  · subst hk
    simp [h]
  · simp [hk]

/-- Erasing an absent key is a no-op. -/
theorem eraseA_of_not_mem (l : List (String × β)) (k : String)
    (h : lookupA l k = none) : eraseA l k = l := by
  induction l with
  | nil => rfl
  | cons hd t ih =>
    obtain ⟨k', v'⟩ := hd
    by_cases hk : k' = k
    · simp [lookupA, hk] at h
    · simp only [lookupA, if_neg hk] at h
      simp [eraseA, hk, ih h]

/-- Re-inserting the binding that is present is the inverse of erasing it. -/
theorem insertA_eraseA (l : List (String × β)) (k : String) (v : β)
    (hs : SortedKeys l) (h : lookupA l k = some v) :
    insertA (eraseA l k) k v = l := by
  apply ext_sorted _ _ (sortedKeys_insertA _ _ _ (sortedKeys_eraseA _ _ hs)) hs
  intro k'
  by_cases hk : k' = k
  · subst hk
    simp [h]
  · simp [hk]

theorem insertA_insertA_same (l : List (String × β)) (k : String) (v v₂ : β)
    (hs : SortedKeys l) : insertA (insertA l k v) k v₂ = insertA l k v₂ := by
  apply ext_sorted _ _ (sortedKeys_insertA _ _ _ (sortedKeys_insertA _ _ _ hs))
    (sortedKeys_insertA _ _ _ hs)
  intro k'
  by_cases hk : k' = k
  · subst hk
    simp
  · simp [hk]

theorem insertA_comm (l : List (String × β)) (k₁ k₂ : String) (v₁ v₂ : β)
    (hs : SortedKeys l) (hne : k₁ ≠ k₂) :
    insertA (insertA l k₁ v₁) k₂ v₂ = insertA (insertA l k₂ v₂) k₁ v₁ := by
  apply ext_sorted _ _ (sortedKeys_insertA _ _ _ (sortedKeys_insertA _ _ _ hs))
    (sortedKeys_insertA _ _ _ (sortedKeys_insertA _ _ _ hs))
  intro k
  by_cases h1 : k = k₁
  · subst h1
    rw [lookupA_insertA_ne _ _ _ _ hne, lookupA_insertA_self, lookupA_insertA_self]
  · by_cases h2 : k = k₂
    · subst h2
      rw [lookupA_insertA_self, lookupA_insertA_ne _ _ _ _ (Ne.symm hne),
        lookupA_insertA_self]
    · rw [lookupA_insertA_ne _ _ _ _ h2, lookupA_insertA_ne _ _ _ _ h1,
        lookupA_insertA_ne _ _ _ _ h1, lookupA_insertA_ne _ _ _ _ h2]

/-- `updateIndexes` never fails and acts pointwise (`AddToIndex` and
`RemoveFromIndex` always return nil). -/
theorem updateIndexesGo_ok (l : List (String × Index)) (o nw : Option Document) :
    updateIndexesGo l o nw = .ok (l.map (fun p => (p.1, updateOneIndex o nw p.2))) := by
  induction l with
  | nil => rfl
  | cons hd t ih =>
    obtain ⟨n, idx⟩ := hd
    cases o with
    | none =>
      cases nw with
      | none => simp [updateIndexesGo, ih, updateOneIndex]
      | some d =>
        simp only [updateIndexesGo, Index.AddToIndex, ih, updateOneIndex]
        cases hh : d.GetValue idx.fieldName <;> simp [hh]
    | some dOld =>
      cases nw with
      | none =>
        simp only [updateIndexesGo, Index.RemoveFromIndex, ih, updateOneIndex]
        cases hh : dOld.GetValue idx.fieldName <;> simp [hh]
      | some dNew =>
        simp only [updateIndexesGo, Index.RemoveFromIndex, Index.AddToIndex, ih,
          updateOneIndex]
        cases hh : dOld.GetValue idx.fieldName <;> simp only [hh] <;>
          cases hh2 : dNew.GetValue idx.fieldName <;> simp [hh, hh2]

/-! ## Claim C1 — update atomicity -/

/-- C1 (code bug): `Collection.Update` is *not* atomic on the `_id` error
path.  With the pre-image `d1 ↦ {a: 1}`, the updates map
`{b: 2, _id: "x"}` iterated in the order `b` before `_id` returns the
"cannot update _id field" error, yet leaves `b ↦ 2` applied to the stored
document (the Go loop mutates the live `doc.Data` before hitting the `_id`
check and that error return performs no rollback), so a subsequent
`FindByID` returns the mutated document, not the pre-image. -/
theorem update_id_bug_breaks_atomicity :
    (Collection.Update
        { name := "c", schema := none,
          documents := [("d1", { id := "d1", data := [("a", Value.num 1)] })],
          indexes :=
            [("_id", { name := "_id", fieldName := "_id", data := [("d1", "d1")] })] }
        "d1" [("b", Value.num 2), ("_id", Value.str "x")]).1
      = some "cannot update _id field" ∧
    (Collection.Update
        { name := "c", schema := none,
          documents := [("d1", { id := "d1", data := [("a", Value.num 1)] })],
          indexes :=
            [("_id", { name := "_id", fieldName := "_id", data := [("d1", "d1")] })] }
        "d1" [("b", Value.num 2), ("_id", Value.str "x")]).2.FindByID "d1"
      = .ok { id := "d1", data := [("a", Value.num 1), ("b", Value.num 2)] } ∧
    lookupA [("a", Value.num 1)] "b" = (none : Option Value) :=
  ⟨rfl, by rfl, rfl⟩

/-! ## Claim C2 — save/load round trip -/

/-- C2 (code bug): the save/load round trip fails after a delete.
`NewBinaryCollectionWriter` opens `collection.data` without truncation and
loads the pre-existing `collection.idx` into the writer, and `SaveCollection`
only ever *adds* entries, so the offset-index entry of a document deleted in
memory survives a full save and `LoadCollection` resurrects the document:
saving `{d1}`, deleting `d1` (in-memory documents now empty), saving again and
loading yields a collection that still contains `d1`. -/
theorem save_load_resurrects_deleted_document :
    ((Collection.Delete
        { name := "c", schema := none,
          documents := [("d1", { id := "d1", data := [("a", Value.num 1)] })],
          indexes :=
            [("_id", { name := "_id", fieldName := "_id", data := [("d1", "d1")] })] } "d1").2.documents = [] ∧
    (LoadCollection
        (SaveCollection
          (SaveCollection {}
            { name := "c", schema := none,
              documents := [("d1", { id := "d1", data := [("a", Value.num 1)] })],
              indexes :=
                [("_id",
                  { name := "_id", fieldName := "_id", data := [("d1", "d1")] })] })
          (Collection.Delete
            { name := "c", schema := none,
              documents := [("d1", { id := "d1", data := [("a", Value.num 1)] })],
              indexes :=
                [("_id",
                  { name := "_id", fieldName := "_id", data := [("d1", "d1")] })] } "d1").2)).toOption.map
      (fun c => keysA c.documents) = some ["d1"]) :=
  ⟨rfl, by rfl⟩

/-! ## Claim C4 — comparison semantics of range filters -/

/-- C4 (counterexample): the range operators do *not* compare numerically when
both operands are numeric: with `age = 9` the filter `age lt 30` does not
match and `age gt 30` matches, because `compareValues` stringifies both sides
unconditionally and `"9" > "30"` lexicographically — although `9 < 30` as
integers. -/
theorem range_filter_lexicographic_on_numbers :
    matchesFilter { id := "d1", data := [("age", Value.num 9)] }
      { field := "age", operator := "lt", value := Value.num 30 } = false ∧
    matchesFilter { id := "d1", data := [("age", Value.num 9)] }
      { field := "age", operator := "gt", value := Value.num 30 } = true ∧
    (9 : Int) < 30 :=
  ⟨rfl, rfl, by decide⟩

/-! ## Claim C5 — binary file validation on open -/

/-- C5 (counterexample): a `collection.data` file whose header carries the
correct magic but version 2 (≠ `BinaryFormatVersion` = 1) is *accepted* by
`NewBinaryCollectionReader` — the source compares only `header.Magic` and
never checks the version. -/
theorem reader_accepts_wrong_version :
    (NewBinaryCollectionReader
      { dataFile := some (leBytes 4 CollectionMagic ++ leBytes 2 2 ++ leBytes 2 1),
        idxFile := some [] }).isOk = true ∧
    (readHeader (leBytes 4 CollectionMagic ++ leBytes 2 2 ++ leBytes 2 1)).map
      BinaryHeader.version = some 2 ∧
    BinaryFormatVersion = 1 :=
  ⟨rfl, rfl, rfl⟩

/-- C5 (amended): `NewBinaryCollectionReader` succeeds exactly when
`collection.data` is present, at least `HeaderSize` bytes long (the 8-byte
`ReadAt` succeeds), its magic field decodes to `CollectionMagic`, and the
offset index loads (which it does when `collection.idx` is absent or empty,
and fails when the file is present but malformed); the version field is read
but plays no role. -/
theorem reader_rejects_iff_bad_magic (bytes : List Nat)
    (idx : Option (List Nat)) :
    (NewBinaryCollectionReader { dataFile := some bytes, idxFile := idx }).isOk = true ↔
      ((∃ h, readHeader bytes = some h ∧ h.magic = CollectionMagic) ∧
        (LoadOffsetIndex { dataFile := some bytes, idxFile := idx }).isOk = true) := by
  have hred : NewBinaryCollectionReader { dataFile := some bytes, idxFile := idx } =
      (match readHeader bytes with
       | none => .error "failed to read header"
       | some h =>
         if h.magic ≠ CollectionMagic then .error "invalid magic number"
         else
           match LoadOffsetIndex { dataFile := some bytes, idxFile := idx } with
           | .error _ => .error "failed to load index"
           | .ok i => .ok (bytes, i)) :=
    rfl
  rw [hred]
  cases hh : readHeader bytes with
  | none => simp [Except.isOk, Except.toBool]
  | some h =>
    by_cases hm : h.magic = CollectionMagic
    · cases hL : LoadOffsetIndex { dataFile := some bytes, idxFile := idx } with
      | error e => simp [hm, hL, Except.isOk, Except.toBool]
      | ok i => simp [hm, hL, Except.isOk, Except.toBool]
    · simp [hm, Except.isOk, Except.toBool]

/-- Witness for C5's amended theorem at a concrete header: a correct header
with a missing `collection.idx` opens, and — per the other direction — the
same header with a malformed one-byte `collection.idx` is rejected. -/
theorem reader_rejects_iff_bad_magic_witness :
    (NewBinaryCollectionReader { dataFile := some headerBytes, idxFile := none }).isOk
        = true ∧
      (NewBinaryCollectionReader
        { dataFile := some headerBytes, idxFile := some [7] }).isOk = false :=
  ⟨(reader_rejects_iff_bad_magic headerBytes none).mpr
      ⟨⟨{ magic := CollectionMagic, version := 1, flags := 1 }, rfl, rfl⟩, rfl⟩,
    by
      have h := reader_rejects_iff_bad_magic headerBytes (some [7])
      cases hc : (NewBinaryCollectionReader
          { dataFile := some headerBytes, idxFile := some [7] }).isOk
      · rfl
      · exact absurd ((h.mp hc).2) (by decide)⟩

/-! ## Claim C3 — user-index agreement invariant -/

/-- C3 (counterexample): from a fresh collection, create an index on `F`,
insert `d1` and `d2` both with `F = "v"`, then delete `d2`: `d1` survives with
`F` present and stringifying to `"v"`, yet the index's map is empty —
`RemoveFromIndex` deleted the shared key outright.  The claim's assertion that
the other document's key remains present fails on this reachable state. -/
theorem collision_delete_drops_surviving_key :
    keysA (runOps "c" none
      [ .createIndex "byF" "F",
        .insert "" { id := "d1", data := [("F", Value.str "v")] },
        .insert "" { id := "d2", data := [("F", Value.str "v")] },
        .delete "d2" ]).documents = ["d1"] ∧
    ((runOps "c" none
      [ .createIndex "byF" "F",
        .insert "" { id := "d1", data := [("F", Value.str "v")] },
        .insert "" { id := "d2", data := [("F", Value.str "v")] },
        .delete "d2" ]).documents.head?.bind
        (fun p => keyOf p.2 "F")) = some "v" ∧
    (lookupA (runOps "c" none
      [ .createIndex "byF" "F",
        .insert "" { id := "d1", data := [("F", Value.str "v")] },
        .insert "" { id := "d2", data := [("F", Value.str "v")] },
        .delete "d2" ]).indexes "byF").map Index.data = some [] :=
  ⟨rfl, rfl, rfl⟩

/-! ## Claim C6 — find determinism under index selection -/

/-- C6 (counterexample): with two indexes both on field `F` that map the key
`"v"` to different ids (a state reachable because index builds resolve
collisions by map-iteration order), the same `eq` query returns `[d1]` under
one index-iteration order and `[d2]` under the permuted order: `Find` uses
the first index the `range` loop happens to visit, and no name-based
tie-break exists. -/
theorem find_depends_on_index_iteration_order :
    (Find
      [{ id := "d1", data := [("F", Value.str "v")] },
        { id := "d2", data := [("F", Value.str "v")] }]
      [{ name := "i1", fieldName := "F", data := [("v", "d1")] },
        { name := "i2", fieldName := "F", data := [("v", "d2")] }]
      { filters := [{ field := "F", operator := "eq", value := Value.str "v" }] }).map
        Document.id = ["d1"] ∧
    (Find
      [{ id := "d1", data := [("F", Value.str "v")] },
        { id := "d2", data := [("F", Value.str "v")] }]
      [{ name := "i2", fieldName := "F", data := [("v", "d2")] },
        { name := "i1", fieldName := "F", data := [("v", "d1")] }]
      { filters := [{ field := "F", operator := "eq", value := Value.str "v" }] }).map
        Document.id = ["d2"] ∧
    ([{ name := "i1", fieldName := "F", data := [("v", "d1")] },
      { name := "i2", fieldName := "F", data := [("v", "d2")] }] : List Index).Perm
      [{ name := "i2", fieldName := "F", data := [("v", "d2")] },
        { name := "i1", fieldName := "F", data := [("v", "d1")] }] ∧
    Find
      [{ id := "d1", data := [("F", Value.str "v")] },
        { id := "d2", data := [("F", Value.str "v")] }]
      [{ name := "i1", fieldName := "F", data := [("v", "d1")] },
        { name := "i2", fieldName := "F", data := [("v", "d2")] }]
      { filters := [{ field := "F", operator := "eq", value := Value.str "v" }] } ≠
    Find
      [{ id := "d1", data := [("F", Value.str "v")] },
        { id := "d2", data := [("F", Value.str "v")] }]
      [{ name := "i2", fieldName := "F", data := [("v", "d2")] },
        { name := "i1", fieldName := "F", data := [("v", "d1")] }]
      { filters := [{ field := "F", operator := "eq", value := Value.str "v" }] } := by
  refine ⟨rfl, rfl, List.Perm.swap _ _ _, ?_⟩
  intro h
  have h2 := congrArg (fun l => l.map Document.id) h
  simp only at h2
  have h3 : (["d1"] : List String) = ["d2"] := by
    calc (["d1"] : List String)
        = _ := rfl
      _ = _ := h2
      _ = ["d2"] := rfl
  simp at h3

/-! ## Claim C7 — WAL replay idempotence -/

/-- C7 (counterexample): replay of the two-entry WAL
`[update c x {b:2}, insert c x {a:1}]` is not idempotent.  From an empty
collection, one replay makes `x = {a:1}` (the update no-ops on the missing id,
the insert fires); replaying the same WAL again *merges* `{b:2}` into the now
present `x` and then no-ops the insert, ending with `x = {a:1, b:2}` — a
different final state. -/
theorem wal_replay_twice_differs :
    obsDM (applyWAL
      { databases :=
          [("d", { name := "d", collections := [("c", NewCollection "c" none)] })] }
      ([ .update "d" "c" { id := "x", data := [("b", Value.num 2)] },
         .insert "d" "c" { id := "x", data := [("a", Value.num 1)] } ] ++
       [ .update "d" "c" { id := "x", data := [("b", Value.num 2)] },
         .insert "d" "c" { id := "x", data := [("a", Value.num 1)] } ])) =
      [("d", [("c", [("x", [("a", "1"), ("b", "2")])])])] ∧
    obsDM (applyWAL
      { databases :=
          [("d", { name := "d", collections := [("c", NewCollection "c" none)] })] }
      [ .update "d" "c" { id := "x", data := [("b", Value.num 2)] },
        .insert "d" "c" { id := "x", data := [("a", Value.num 1)] } ]) =
      [("d", [("c", [("x", [("a", "1")])])])] ∧
    applyWAL
      { databases :=
          [("d", { name := "d", collections := [("c", NewCollection "c" none)] })] }
      ([ .update "d" "c" { id := "x", data := [("b", Value.num 2)] },
         .insert "d" "c" { id := "x", data := [("a", Value.num 1)] } ] ++
       [ .update "d" "c" { id := "x", data := [("b", Value.num 2)] },
         .insert "d" "c" { id := "x", data := [("a", Value.num 1)] } ]) ≠
      applyWAL
        { databases :=
            [("d", { name := "d", collections := [("c", NewCollection "c" none)] })] }
        [ .update "d" "c" { id := "x", data := [("b", Value.num 2)] },
          .insert "d" "c" { id := "x", data := [("a", Value.num 1)] } ] := by
  refine ⟨rfl, rfl, ?_⟩
  intro h
  have h2 := congrArg obsDM h
  rw [show obsDM (applyWAL
      { databases :=
          [("d", { name := "d", collections := [("c", NewCollection "c" none)] })] }
      ([ .update "d" "c" { id := "x", data := [("b", Value.num 2)] },
         .insert "d" "c" { id := "x", data := [("a", Value.num 1)] } ] ++
       [ .update "d" "c" { id := "x", data := [("b", Value.num 2)] },
         .insert "d" "c" { id := "x", data := [("a", Value.num 1)] } ])) =
      [("d", [("c", [("x", [("a", "1"), ("b", "2")])])])] from rfl,
    show obsDM (applyWAL
      { databases :=
          [("d", { name := "d", collections := [("c", NewCollection "c" none)] })] }
      [ .update "d" "c" { id := "x", data := [("b", Value.num 2)] },
        .insert "d" "c" { id := "x", data := [("a", Value.num 1)] } ]) =
      [("d", [("c", [("x", [("a", "1")])])])] from rfl] at h2
  simp at h2

/-! ## Claim C9 — filters on missing fields and unknown operators -/

/-- `skip`/`limit` post-processing only ever drops results. -/
theorem mem_applySkipLimit (q : Query) (r : List Document) (d : Document)
    (h : d ∈ applySkipLimit q r) : d ∈ r := by
  unfold applySkipLimit at h
  by_cases hs : q.skip > 0 <;> by_cases hge : q.skip ≥ (r.length : Int) <;>
    simp only [hs, hge, if_pos, if_neg, if_true, if_false, not_true, not_false_iff] at h
  · split at h
    · exact absurd (List.take_subset _ _ h) (List.not_mem_nil d)
    · exact absurd h (List.not_mem_nil d)
  · split at h
    · exact List.drop_subset _ _ (List.take_subset _ _ h)
    · exact List.drop_subset _ _ h
  · split at h
    · exact List.take_subset _ _ h
    · exact h
  · split at h
    · exact List.take_subset _ _ h
    · exact h

/-- C9: a filter never matches a document that lacks the filter's field — for
every operator, `ne` and `in` included; a filter whose operator is outside
`{eq, ne, gt, gte, lt, lte, in}` matches no document at all; consequently
`Find` with a single `ne` filter on a field returns no document missing that
field. -/
theorem filter_requires_field_and_known_operator :
    (∀ (d : Document) (f : QueryFilter),
      d.GetValue f.field = none → matchesFilter d f = false) ∧
    (∀ (d : Document) (f : QueryFilter),
      f.operator ∉ (["eq", "ne", "gt", "gte", "lt", "lte", "in"] : List String) →
      matchesFilter d f = false) ∧
    (∀ (docs : List Document) (idxs : List Index) (fld : String) (v : Value)
        (lim sk : Int) (d : Document),
      d ∈ Find docs idxs
        { filters := [{ field := fld, operator := "ne", value := v }],
          limit := lim, skip := sk } →
      (d.GetValue fld).isSome = true) := by
  have part1 : ∀ (d : Document) (f : QueryFilter),
      d.GetValue f.field = none → matchesFilter d f = false := by
    intro d f h
    simp [matchesFilter, h]
  refine ⟨part1, ?_, ?_⟩
  · intro d f h
    simp only [List.mem_cons, List.not_mem_nil, or_false, not_or] at h
    unfold matchesFilter
    cases hg : d.GetValue f.field with
    | none => rfl
    | some v =>
      obtain ⟨h1, h2, h3, h4, h5, h6, h7⟩ := h
      split <;> simp_all
  · intro docs idxs fld v lim sk d hmem
    have hne : ¬ ("ne" : String) = "eq" := by decide
    unfold Find at hmem
    simp only [hne, if_false, if_neg] at hmem
    have hres := mem_applySkipLimit _ _ _ hmem
    rcases List.mem_map.mp hres with ⟨d', hd', hc⟩
    have hmatch := List.of_mem_filter hd'
    simp only at hmatch
    have hdd : d' = d := hc
    subst hdd
    simp only [matchesAllFilters, List.all_cons, List.all_nil, Bool.and_true] at hmatch
    cases hg : d'.GetValue fld with
    | none =>
      have := part1 d' { field := fld, operator := "ne", value := v } hg
      rw [this] at hmatch
      exact absurd hmatch (by simp)
    | some _ => rfl

/-- Witness for C9 at concrete inputs: a document lacking `age` is rejected by
an `in` filter and by an unknown operator, and a single-`ne` `Find` only
returns documents carrying the field. -/
theorem filter_requires_field_witness :
    matchesFilter { id := "d1", data := [] }
      { field := "age", operator := "in", value := Value.arr [Value.num 1] } = false ∧
    matchesFilter { id := "d1", data := [("age", Value.num 1)] }
      { field := "age", operator := "regex", value := Value.num 1 } = false ∧
    (({ id := "d2", data := [("age", Value.num 7)] } : Document).GetValue "age").isSome
      = true := by
  refine ⟨?_, ?_, ?_⟩
  · exact filter_requires_field_and_known_operator.1
      { id := "d1", data := [] }
      { field := "age", operator := "in", value := Value.arr [Value.num 1] } rfl
  · exact filter_requires_field_and_known_operator.2.1
      { id := "d1", data := [("age", Value.num 1)] }
      { field := "age", operator := "regex", value := Value.num 1 } (by decide)
  · refine filter_requires_field_and_known_operator.2.2
      [{ id := "d2", data := [("age", Value.num 7)] }] [] "age" (Value.num 1) 0 0
      { id := "d2", data := [("age", Value.num 7)] } ?_
    rw [show Find [{ id := "d2", data := [("age", Value.num 7)] }] []
        { filters := [{ field := "age", operator := "ne", value := Value.num 1 }],
          limit := 0, skip := 0 } =
        [{ id := "d2", data := [("age", Value.num 7)] }] from rfl]
    exact List.mem_singleton_self _

/-! ## Claim C10 — index updates never fail; insert totality -/

/-- C10: `AddToIndex` and `RemoveFromIndex` return nil for every index and
document, so `updateIndexes` never returns an error — the index-failure
rollback branches in `Insert`, `Update` and `Delete` are unreachable dead
code — and every `Insert` that passes the duplicate-id check and schema
validation succeeds (and stores the document). -/
theorem index_ops_never_fail_and_insert_total :
    (∀ (idx : Index) (d : Document), (idx.AddToIndex d).isOk = true) ∧
    (∀ (idx : Index) (d : Document), (idx.RemoveFromIndex d).isOk = true) ∧
    (∀ (l : List (String × Index)) (o nw : Option Document),
      (updateIndexesGo l o nw).isOk = true) ∧
    (∀ (c : Collection) (g : String) (doc : Document),
      lookupA c.documents (if doc.id = "" then g else doc.id) = none →
      validateDocOpt c.schema
        (if doc.id = "" then { doc with id := g } else doc) = none →
      (c.Insert g doc).1 = none ∧
      lookupA (c.Insert g doc).2.documents (if doc.id = "" then g else doc.id) =
        some (if doc.id = "" then { doc with id := g } else doc)) := by
  refine ⟨?_, ?_, ?_, ?_⟩
  · intro idx d
    unfold Index.AddToIndex
    cases hg : d.GetValue idx.fieldName <;> rfl
  · intro idx d
    unfold Index.RemoveFromIndex
    cases hg : d.GetValue idx.fieldName <;> rfl
  · intro l o nw
    rw [updateIndexesGo_ok]
    rfl
  · intro c g doc h1 h2
    by_cases hid : doc.id = ""
    · rw [if_pos hid] at h1 h2
      simp [Collection.Insert, hid, h1, h2, updateIndexesGo_ok]
    · rw [if_neg hid] at h1 h2
      simp [Collection.Insert, hid, h1, h2, updateIndexesGo_ok]

/-- Witness for C10's insert-totality clause at a concrete collection. -/
theorem index_ops_never_fail_witness :
    (Collection.Insert (NewCollection "c" none) "gen"
      { id := "d9", data := [("a", Value.num 3)] }).1 = none ∧
    lookupA (Collection.Insert (NewCollection "c" none) "gen"
      { id := "d9", data := [("a", Value.num 3)] }).2.documents "d9" =
      some { id := "d9", data := [("a", Value.num 3)] } := by
  have h := index_ops_never_fail_and_insert_total.2.2.2
    (NewCollection "c" none) "gen" { id := "d9", data := [("a", Value.num 3)] }
    (by rfl) (by rfl)
  exact ⟨h.1, h.2⟩

/-! ## Claim C4 (amended theorem) -/

theorem map_clone (l : List Document) : l.map Document.Clone = l := by
  induction l with
  | nil => rfl
  | cons hd t ih => simp [Document.Clone, ih]

theorem applySkipLimit_zero (q : Query) (hskip : q.skip = 0) (hlim : q.limit = 0)
    (r : List Document) : applySkipLimit q r = r := by
  unfold applySkipLimit
  simp [hskip, hlim]

/-- C4 (amended): on a single `gt`/`gte`/`lt`/`lte` filter (no skip/limit),
`Find` returns exactly the documents whose stringified field value compares
lexicographically (`strings.Compare` on the `fmt("%v")` forms) as the operator
demands — including when both operands are numeric; no typed numeric
comparison path exists. -/
theorem range_filters_compare_lexicographically (docs : List Document)
    (idxs : List Index) (fld : String) (a : Value) (op : String)
    (hop : op = "gt" ∨ op = "gte" ∨ op = "lt" ∨ op = "lte") :
    Find docs idxs { filters := [{ field := fld, operator := op, value := a }] } =
      docs.filter (fun d =>
        match d.GetValue fld with
        | none => false
        | some v =>
          match op with
          | "gt" => compare (fmtV v) (fmtV a) == .gt
          | "gte" => !(compare (fmtV v) (fmtV a) == .lt)
          | "lt" => compare (fmtV v) (fmtV a) == .lt
          | _ => !(compare (fmtV v) (fmtV a) == .gt)) := by
  have hne : ¬ op = "eq" := by
    rcases hop with h | h | h | h <;> subst h <;> decide
  unfold Find
  simp only [if_neg hne]
  rw [applySkipLimit_zero _ rfl rfl, map_clone]
  apply List.filter_congr
  intro d _
  simp only [matchesAllFilters, List.all_cons, List.all_nil, Bool.and_true]
  unfold matchesFilter compareValues
  cases hg : d.GetValue fld with
  | none => rcases hop with h | h | h | h <;> subst h <;> rfl
  | some v => rcases hop with h | h | h | h <;> subst h <;> rfl

/-- Witness for C4's amended theorem: `age gte 30` keeps 30 and 40 and drops
20 (same digit count, so S4's scenario survives lexicographic comparison). -/
theorem range_filters_compare_lexicographically_witness :
    Find
      [{ id := "a", data := [("age", Value.num 20)] },
        { id := "b", data := [("age", Value.num 30)] },
        { id := "c", data := [("age", Value.num 40)] }] []
      { filters := [{ field := "age", operator := "gte", value := Value.num 30 }] } =
      [{ id := "b", data := [("age", Value.num 30)] },
        { id := "c", data := [("age", Value.num 40)] }] := by
  rw [range_filters_compare_lexicographically _ _ _ _ _ (Or.inr (Or.inl rfl))]
  rfl

/-! ## Claim C8 — record CRC invariant and read-side verification -/

/-- C8: `WriteDocument` stores — in the appended record bytes and in the
offset-index entry — the CRC32/IEEE checksum of the stored (compressed)
payload, whose decompression is exactly the `size`-byte serialized document;
`ReadDocument` recomputes CRC32 over the stored payload bytes (before any
decompression) and fails with the checksum-mismatch error for that document
whenever it differs from the recorded checksum. -/
theorem write_read_crc_invariant :
    (∀ (w : BinaryCollectionWriter) (doc : Document),
      ∃ payload,
        Compress doc.MarshalJSON = .ok payload ∧
        (w.WriteDocument doc).fileBytes =
          w.fileBytes ++ (leBytes 8 w.offset ++ leBytes 4 doc.MarshalJSON.length ++
            leBytes 4 payload.length ++ leBytes 4 (crc32 payload)) ++ payload ∧
        lookupA (w.WriteDocument doc).index doc.id = some
          { offset := w.offset, size := doc.MarshalJSON.length % 2 ^ 32,
            compressedSize := payload.length % 2 ^ 32, checksum := crc32 payload } ∧
        Decompress payload = .ok doc.MarshalJSON) ∧
    (∀ (bytes : List Nat) (idx : List (String × DocumentEntry)) (docID : String)
        (entry : DocumentEntry),
      lookupA idx docID = some entry →
      entry.offset + DocEntryHeaderSize + entry.compressedSize ≤ bytes.length →
      crc32 (((bytes.drop entry.offset).take
        (DocEntryHeaderSize + entry.compressedSize)).drop DocEntryHeaderSize) ≠
        entry.checksum →
      ReadDocument bytes idx docID = .error "checksum mismatch") := by
  constructor
  · intro w doc
    refine ⟨doc.MarshalJSON, rfl, rfl, ?_, rfl⟩
    unfold BinaryCollectionWriter.WriteDocument
    simp only [Compress]
    exact lookupA_insertA_self _ _ _
  · intro bytes idx docID entry h1 h2 h3
    simp only [ReadDocument, h1]
    rw [if_neg (not_lt.mpr h2), if_pos h3]

/-- Witness for C8's read-side clause: write one document into a fresh file,
flip the payload byte at offset 30, and reading that document fails with the
checksum mismatch. -/
theorem write_read_crc_witness :
    ReadDocument
      ((BinaryCollectionWriter.WriteDocument (NewBinaryCollectionWriter {})
        { id := "d1", data := [("F", Value.str "v")] }).fileBytes.set 30 99)
      (BinaryCollectionWriter.WriteDocument (NewBinaryCollectionWriter {})
        { id := "d1", data := [("F", Value.str "v")] }).index
      "d1" = .error "checksum mismatch" := by
  apply write_read_crc_invariant.2 _ _ _
    { offset := 8, size := 29, compressedSize := 29, checksum := 600163419 }
  · rfl
  · decide
  · decide

/-! ## Claim C6 (amended theorem) -/

/-- The index-probing loop under an agreement hypothesis: if every index
covering the filter's field returns the same lookup result `r`, the loop's
outcome does not depend on the iteration order — it is `.scan` when no index
covers the field, `.empty` when `r` is a miss, and otherwise determined by
the (order-independent) id lookup. -/
theorem findCandidates_cons_cover (docs : List Document) (f : QueryFilter)
    (i : Index) (t : List Index) (hcov : i.fieldName = f.field) :
    findCandidates docs f (i :: t) =
      match i.Find f.value with
      | none => .empty
      | some docID =>
        match docs.find? (fun d => d.id == docID) with
        | some d => .cand d
        | none => findCandidates docs f t := by
  conv_lhs => rw [findCandidates]
  rw [if_pos hcov]

theorem findCandidates_agree (docs : List Document) (f : QueryFilter)
    (idxs : List Index) (r : Option String)
    (hag : ∀ i ∈ idxs, i.fieldName = f.field → i.Find f.value = r) :
    findCandidates docs f idxs =
      if ∀ i ∈ idxs, ¬ i.fieldName = f.field then .scan
      else candOutcome docs r := by
  induction idxs with
  | nil => simp [findCandidates]
  | cons i t ih =>
    have iht := ih (fun j hj hc => hag j (List.mem_cons_of_mem _ hj) hc)
    by_cases hcov : i.fieldName = f.field
    · have hir := hag i (List.mem_cons_self _ _) hcov
      have hcond : ¬ ∀ j ∈ i :: t, ¬ j.fieldName = f.field := by
        intro hall
        exact hall i (List.mem_cons_self _ _) hcov
      rw [if_neg hcond, findCandidates_cons_cover docs f i t hcov, hir]
      cases r with
      | none => simp [candOutcome]
      | some did =>
        cases hfind : docs.find? (fun d => d.id == did) with
        | some d => simp [candOutcome, hfind]
        | none =>
          simp only [candOutcome, hfind]
          rw [iht]
          by_cases ht : ∀ j ∈ t, ¬ j.fieldName = f.field
          · rw [if_pos ht]
          · rw [if_neg ht]
            simp [candOutcome, hfind]
    · have hstep : findCandidates docs f (i :: t) = findCandidates docs f t := by
        conv_lhs => rw [findCandidates]
        rw [if_neg hcov]
      rw [hstep, iht]
      by_cases ht : ∀ j ∈ t, ¬ j.fieldName = f.field
      · rw [if_pos ht, if_pos]
        intro j hj
        rcases List.mem_cons.mp hj with h | h
        · rw [h]
          exact hcov
        · exact ht j h
      · rw [if_neg ht, if_neg]
        intro hall
        exact ht (fun j hj => hall j (List.mem_cons_of_mem _ hj))

/-- `find?` by a unique id is stable under permutation of the scan order. -/
theorem find?_perm_of_unique (l₁ l₂ : List Document) (h : l₁.Perm l₂)
    (did : String) (hnd : (l₁.map Document.id).Nodup) :
    l₁.find? (fun d => d.id == did) = l₂.find? (fun d => d.id == did) := by
  cases hf : l₁.find? (fun d => d.id == did) with
  | none =>
    have hnone : ∀ x ∈ l₂, ¬ (x.id == did) = true := by
      intro x hx
      exact List.find?_eq_none.mp hf x (h.mem_iff.mpr hx)
    exact (List.find?_eq_none.mpr hnone).symm
  | some d =>
    have hd := List.find?_some hf
    simp only at hd
    have hdm : d ∈ l₁ := List.mem_of_find?_eq_some hf
    cases hf₂ : l₂.find? (fun d => d.id == did) with
    | none =>
      exact absurd hd (List.find?_eq_none.mp hf₂ d (h.mem_iff.mp hdm))
    | some d₂ =>
      have hd₂ := List.find?_some hf₂
      simp only at hd₂
      have hdm₂ : d₂ ∈ l₁ := h.mem_iff.mpr (List.mem_of_find?_eq_some hf₂)
      have : d = d₂ := by
        apply List.inj_on_of_nodup_map hnd hdm hdm₂
        rw [eq_of_beq hd, eq_of_beq hd₂]
      rw [this]


/-- C6 (amended): with no skip/limit, whenever all indexes covering the first
filter's field agree on the looked-up key (in particular whenever at most one
index covers it), two executions of `Find` — over arbitrarily permuted
document-scan and index-iteration orders — return permutations of the same
results; which covering index is consulted is whichever the map iteration
visits first, not a name-based tie-break. -/
theorem find_perm_invariant_under_index_agreement
    (docs₁ docs₂ : List Document) (idxs₁ idxs₂ : List Index)
    (filters : List QueryFilter) (r : Option String)
    (hdocs : docs₁.Perm docs₂) (hidxs : idxs₁.Perm idxs₂)
    (hnodup : (docs₁.map Document.id).Nodup)
    (hagree : ∀ f, filters.head? = some f → f.operator = "eq" →
      ∀ i ∈ idxs₁, i.fieldName = f.field → i.Find f.value = r) :
    (Find docs₁ idxs₁ { filters := filters }).Perm
      (Find docs₂ idxs₂ { filters := filters }) := by
  cases filters with
  | nil =>
    show (applySkipLimit { filters := [] } (docs₁.map Document.Clone)).Perm
      (applySkipLimit { filters := [] } (docs₂.map Document.Clone))
    rw [applySkipLimit_zero _ rfl rfl, applySkipLimit_zero _ rfl rfl,
      map_clone, map_clone]
    exact hdocs
  | cons f rest =>
    have hshape : ∀ (docs : List Document) (idxs : List Index),
        Find docs idxs { filters := f :: rest } =
          applySkipLimit { filters := f :: rest }
            (if f.operator = "eq" then
              match findCandidates docs f idxs with
              | .empty => []
              | .cand d =>
                if matchesAllFilters d (f :: rest) then [d.Clone] else []
              | .scan =>
                (docs.filter (fun d => matchesAllFilters d (f :: rest))).map
                  Document.Clone
            else
              (docs.filter (fun d => matchesAllFilters d (f :: rest))).map
                Document.Clone) := by
      intro docs idxs
      rfl
    rw [hshape, hshape, applySkipLimit_zero _ rfl rfl, applySkipLimit_zero _ rfl rfl]
    have hscanperm :
        ((docs₁.filter (fun d => matchesAllFilters d (f :: rest))).map
          Document.Clone).Perm
        ((docs₂.filter (fun d => matchesAllFilters d (f :: rest))).map
          Document.Clone) := by
      rw [map_clone, map_clone]
      exact hdocs.filter _
    by_cases hop : f.operator = "eq"
    · rw [if_pos hop, if_pos hop]
      have hag₁ : ∀ i ∈ idxs₁, i.fieldName = f.field → i.Find f.value = r :=
        hagree f rfl hop
      have hag₂ : ∀ i ∈ idxs₂, i.fieldName = f.field → i.Find f.value = r :=
        fun i hi => hag₁ i (hidxs.mem_iff.mpr hi)
      rw [findCandidates_agree docs₁ f idxs₁ r hag₁,
        findCandidates_agree docs₂ f idxs₂ r hag₂]
      have hcoviff : (∀ i ∈ idxs₁, ¬ i.fieldName = f.field) ↔
          (∀ i ∈ idxs₂, ¬ i.fieldName = f.field) := by
        constructor
        · intro hh i hi
          exact hh i (hidxs.mem_iff.mpr hi)
        · intro hh i hi
          exact hh i (hidxs.mem_iff.mp hi)
      by_cases hcov : ∀ i ∈ idxs₁, ¬ i.fieldName = f.field
      · rw [if_pos hcov, if_pos (hcoviff.mp hcov)]
        exact hscanperm
      · rw [if_neg hcov, if_neg (fun hh => hcov (hcoviff.mpr hh))]
        cases r with
        | none => exact List.Perm.refl _
        | some did =>
          rw [show candOutcome docs₂ (some did) = candOutcome docs₁ (some did) by
            have hfp := find?_perm_of_unique docs₁ docs₂ hdocs did hnodup
            simp only [candOutcome, hfp]]
          cases hfind : docs₁.find? (fun d => d.id == did) with
          | some d =>
            simp only [candOutcome, hfind]
            exact List.Perm.refl _
          | none =>
            simp only [candOutcome, hfind]
            exact hscanperm
    · rw [if_neg hop, if_neg hop]
      exact hscanperm

/-- Witness for C6's amended theorem: a single covering index, identical
document order, permuted index order. -/
theorem find_perm_invariant_witness :
    (Find [{ id := "d1", data := [("F", Value.str "v")] }]
      [{ name := "i1", fieldName := "F", data := [("v", "d1")] },
        { name := "i9", fieldName := "G", data := [] }]
      { filters := [{ field := "F", operator := "eq", value := Value.str "v" }] }).Perm
    (Find [{ id := "d1", data := [("F", Value.str "v")] }]
      [{ name := "i9", fieldName := "G", data := [] },
        { name := "i1", fieldName := "F", data := [("v", "d1")] }]
      { filters := [{ field := "F", operator := "eq", value := Value.str "v" }] }) := by
  apply find_perm_invariant_under_index_agreement _ _ _ _ _ (some "d1")
    (List.Perm.refl _) (List.Perm.swap _ _ _) (by decide)
  intro f hf hop i hi hfield
  have hf₂ : f = { field := "F", operator := "eq", value := Value.str "v" } :=
    Option.some.inj hf.symm
  subst hf₂
  rcases List.mem_cons.mp hi with h | h
  · rw [h]
    rfl
  · rcases List.mem_cons.mp h with h₂ | h₂
    · rw [h₂] at hfield
      exact absurd hfield (by decide)
    · exact absurd h₂ (List.not_mem_nil i)

/-! ## Idempotence of the update loop (support for claim C7) -/

theorem applyUpdates_flag (d : List (String × Value)) (u : List (String × Value)) :
    (applyUpdates d u).2 = updFlag u := by
  induction u generalizing d with
  | nil => rfl
  | cons p t ih =>
    obtain ⟨k, v⟩ := p
    by_cases h : k = "_id"
    · simp [applyUpdates, updFlag, h]
    · simp [applyUpdates, updFlag, h, ih]

theorem applyUpdates_sorted (d : List (String × Value)) (u : List (String × Value))
    (hs : SortedKeys d) : SortedKeys (applyUpdates d u).1 := by
  induction u generalizing d with
  | nil => exact hs
  | cons p t ih =>
    obtain ⟨k, v⟩ := p
    by_cases h : k = "_id"
    · simpa [applyUpdates, h] using hs
    · simpa [applyUpdates, h] using ih _ (sortedKeys_insertA _ _ _ hs)

theorem lookupA_applyUpdates_not_before (m : List (String × Value))
    (u : List (String × Value)) (k : String) (h : hasKeyBeforeId u k = false) :
    lookupA (applyUpdates m u).1 k = lookupA m k := by
  induction u generalizing m with
  | nil => rfl
  | cons p t ih =>
    obtain ⟨k₁, v₁⟩ := p
    by_cases h1 : k₁ = "_id"
    · simp [applyUpdates, h1]
    · have h2 : ¬ k₁ = k := by
        intro he
        rw [hasKeyBeforeId, if_neg h1, if_pos he] at h
        simp at h
      rw [hasKeyBeforeId, if_neg h1, if_neg h2] at h
      rw [show applyUpdates m ((k₁, v₁) :: t) = applyUpdates (insertA m k₁ v₁) t by
        rw [applyUpdates, if_neg h1]]
      rw [ih _ h, lookupA_insertA_ne _ _ _ _ (fun he => h2 he.symm)]

theorem applyUpdates_insertA_before (D : List (String × Value))
    (u : List (String × Value)) (k : String) (v : Value) (hs : SortedKeys D)
    (hb : hasKeyBeforeId u k = true) :
    applyUpdates (insertA D k v) u = applyUpdates D u := by
  induction u generalizing D v with
  | nil => simp [hasKeyBeforeId] at hb
  | cons p t ih =>
    obtain ⟨k₁, v₁⟩ := p
    by_cases h1 : k₁ = "_id"
    · rw [hasKeyBeforeId, if_pos h1] at hb
      exact absurd hb (by simp)
    · by_cases h2 : k₁ = k
      · rw [applyUpdates, if_neg h1, applyUpdates, if_neg h1, h2,
          insertA_insertA_same _ _ _ _ hs]
      · rw [hasKeyBeforeId, if_neg h1, if_neg h2] at hb
        rw [applyUpdates, if_neg h1, applyUpdates, if_neg h1,
          insertA_comm _ _ _ _ _ hs (fun he => h2 he.symm)]
        exact ih _ _ (sortedKeys_insertA _ _ _ hs) hb

theorem applyUpdates_idem (d : List (String × Value)) (u : List (String × Value))
    (hs : SortedKeys d) :
    applyUpdates (applyUpdates d u).1 u = applyUpdates d u := by
  induction u generalizing d with
  | nil => rfl
  | cons p t ih =>
    obtain ⟨k, v⟩ := p
    by_cases h1 : k = "_id"
    · rw [show applyUpdates d ((k, v) :: t) = (d, true) by
        rw [applyUpdates, if_pos h1]]
      rw [applyUpdates, if_pos h1]
    · rw [show applyUpdates d ((k, v) :: t) = applyUpdates (insertA d k v) t by
        rw [applyUpdates, if_neg h1]]
      rw [show applyUpdates (applyUpdates (insertA d k v) t).1 ((k, v) :: t) =
          applyUpdates (insertA (applyUpdates (insertA d k v) t).1 k v) t by
        rw [applyUpdates, if_neg h1]]
      have hsD : SortedKeys (applyUpdates (insertA d k v) t).1 :=
        applyUpdates_sorted _ _ (sortedKeys_insertA _ _ _ hs)
      by_cases hb : hasKeyBeforeId t k = true
      · rw [applyUpdates_insertA_before _ _ _ _ hsD hb]
        exact ih _ (sortedKeys_insertA _ _ _ hs)
      · have hlk : lookupA (applyUpdates (insertA d k v) t).1 k = some v := by
          rw [lookupA_applyUpdates_not_before _ _ _ (by simpa using hb)]
          exact lookupA_insertA_self _ _ _
        rw [insertA_self _ _ _ hsD hlk]
        exact ih _ (sortedKeys_insertA _ _ _ hs)

/-! ## Per-operation idempotence (claim C7, amended) -/

theorem updateOneIndex_fieldName (o nw : Option Document) (i : Index) :
    (updateOneIndex o nw i).fieldName = i.fieldName := by
  cases o with
  | none =>
    cases nw with
    | none => rfl
    | some d =>
      simp only [updateOneIndex]
      cases hh : d.GetValue i.fieldName <;> simp [hh]
  | some d₀ =>
    cases nw with
    | none =>
      simp only [updateOneIndex]
      cases hh : d₀.GetValue i.fieldName <;> simp [hh]
    | some d =>
      simp only [updateOneIndex]
      cases hh : d₀.GetValue i.fieldName <;> simp only [hh] <;>
        cases hh₂ : d.GetValue i.fieldName <;> simp [hh, hh₂]

theorem updateOneIndex_sorted (o nw : Option Document) (i : Index)
    (hs : SortedKeys i.data) : SortedKeys (updateOneIndex o nw i).data := by
  cases o with
  | none =>
    cases nw with
    | none => exact hs
    | some d =>
      simp only [updateOneIndex]
      cases hh : d.GetValue i.fieldName <;> simp [hh]
      · exact hs
      · exact sortedKeys_insertA _ _ _ hs
  | some d₀ =>
    cases nw with
    | none =>
      simp only [updateOneIndex]
      cases hh : d₀.GetValue i.fieldName <;> simp [hh]
      · exact hs
      · exact sortedKeys_eraseA _ _ hs
    | some d =>
      simp only [updateOneIndex]
      cases hh : d₀.GetValue i.fieldName <;> simp only [hh] <;>
        cases hh₂ : d.GetValue i.fieldName <;> simp [hh, hh₂]
      · exact hs
      · exact sortedKeys_insertA _ _ _ hs
      · exact sortedKeys_eraseA _ _ hs
      · exact sortedKeys_insertA _ _ _ (sortedKeys_eraseA _ _ hs)

theorem updateOneIndex_second (i : Index) (dOld dNew : Document)
    (hs : SortedKeys i.data) :
    updateOneIndex (some dNew) (some dNew) (updateOneIndex (some dOld) (some dNew) i) =
      updateOneIndex (some dOld) (some dNew) i := by
  cases hold : dOld.GetValue i.fieldName with
  | none =>
    cases hnew : dNew.GetValue i.fieldName with
    | none => simp [updateOneIndex, hold, hnew]
    | some v =>
      simp only [updateOneIndex, hold, hnew]
      rw [insertA_eraseA _ _ _ (sortedKeys_insertA _ _ _ hs)
        (lookupA_insertA_self _ _ _)]
  | some w =>
    cases hnew : dNew.GetValue i.fieldName with
    | none => simp [updateOneIndex, hold, hnew]
    | some v =>
      simp only [updateOneIndex, hold, hnew]
      rw [insertA_eraseA _ _ _
        (sortedKeys_insertA _ _ _ (sortedKeys_eraseA _ _ hs))
        (lookupA_insertA_self _ _ _)]

theorem buildIndexGo_eq (idx : Index) (l : List Document) :
    buildIndexGo idx l = .ok (l.foldl Index.addP idx) := by
  induction l generalizing idx with
  | nil => rfl
  | cons d t ih =>
    rw [buildIndexGo]
    cases hh : idx.AddToIndex d with
    | error e =>
      exfalso
      unfold Index.AddToIndex at hh
      cases hg : d.GetValue idx.fieldName <;> rw [hg] at hh <;> simp at hh
    | ok idx₂ =>
      have haddp : Index.addP idx d = idx₂ := by
        unfold Index.addP
        rw [hh]
      show buildIndexGo idx₂ t = Except.ok (List.foldl Index.addP idx (d :: t))
      rw [ih idx₂, List.foldl_cons, haddp]

theorem Insert_idem (c : Collection) (g : String) (doc : Document) :
    ((c.Insert g doc).2.Insert g doc).2 = (c.Insert g doc).2 := by
  by_cases hid : doc.id = ""
  · by_cases hdup : (lookupA c.documents ({ doc with id := g } : Document).id).isSome
    · simp [Collection.Insert, hid, hdup]
    · cases hval : validateDocOpt c.schema { doc with id := g } with
      | some e => simp [Collection.Insert, hid, hdup, hval]
      | none =>
        simp [Collection.Insert, hid, hdup, hval, updateIndexesGo_ok,
          lookupA_insertA_self]
  · by_cases hdup : (lookupA c.documents doc.id).isSome
    · simp [Collection.Insert, hid, hdup]
    · cases hval : validateDocOpt c.schema doc with
      | some e => simp [Collection.Insert, hid, hdup, hval]
      | none =>
        simp [Collection.Insert, hid, hdup, hval, updateIndexesGo_ok,
          lookupA_insertA_self]

theorem Delete_idem (c : Collection) (id : String) (hs : SortedKeys c.documents) :
    ((c.Delete id).2.Delete id).2 = (c.Delete id).2 := by
  cases hl : lookupA c.documents id with
  | none => simp [Collection.Delete, hl]
  | some doc =>
    simp [Collection.Delete, hl, updateIndexesGo_ok, lookupA_eraseA_self _ _ hs]

theorem CreateIndex_idem (c : Collection) (n f : String) :
    ((c.CreateIndex n f).2.CreateIndex n f).2 = (c.CreateIndex n f).2 := by
  by_cases hex : (lookupA c.indexes n).isSome
  · simp [Collection.CreateIndex, hex]
  · simp [Collection.CreateIndex, hex, buildIndexGo_eq, lookupA_insertA_self]

theorem CreateCollection_idem (db : Database) (n : String) (sch : Option Schema) :
    ((db.CreateCollection n sch).2.CreateCollection n sch).2 =
      (db.CreateCollection n sch).2 := by
  by_cases hex : (lookupA db.collections n).isSome
  · simp [Database.CreateCollection, hex]
  · cases hv : (match sch with | some s => s.Validate | none => none) with
    | some e => simp [Database.CreateCollection, hex, hv]
    | none =>
      simp [Database.CreateCollection, hex, hv, lookupA_insertA_self]

theorem Update_idem (c : Collection) (id : String) (u : List (String × Value))
    (hW : c.WF) : ((c.Update id u).2.Update id u).2 = (c.Update id u).2 := by
  obtain ⟨hsd, hsi, hdocs, hidx⟩ := hW
  cases hl : lookupA c.documents id with
  | none => simp [Collection.Update, hl]
  | some doc =>
    have hdd : SortedKeys doc.data := (hdocs (id, doc) (mem_of_lookupA _ _ _ hl)).2
    have hidem := applyUpdates_idem doc.data u hdd
    have hfst : (applyUpdates (applyUpdates doc.data u).1 u).1 =
        (applyUpdates doc.data u).1 := congrArg Prod.fst hidem
    have hsnd : (applyUpdates (applyUpdates doc.data u).1 u).2 =
        (applyUpdates doc.data u).2 := congrArg Prod.snd hidem
    cases hfl : (applyUpdates doc.data u).2 with
    | true =>
      rw [hfl] at hsnd
      simp only [Collection.Update, hl, Document.Clone, hfl, if_true,
        lookupA_insertA_self, hfst, hsnd]
      rw [insertA_insertA_same _ _ _ _ hsd]
    | false =>
      rw [hfl] at hsnd
      cases hval : validateDocOpt c.schema
          { doc with data := (applyUpdates doc.data u).1 } with
      | some e =>
        have hstate : (c.Update id u).2 = c := by
          simp only [Collection.Update, hl, Document.Clone, hfl, hval,
            Bool.false_eq_true, if_false]
          rw [insertA_insertA_same _ _ _ _ hsd, insertA_self _ _ _ hsd hl]
        rw [hstate, hstate]
      | none =>
        simp only [Collection.Update, hl, Document.Clone, hfl, hval,
          updateIndexesGo_ok, lookupA_insertA_self, hfst, hsnd,
          Bool.false_eq_true, if_false]
        rw [insertA_insertA_same _ _ _ _ hsd]
        congr 1
        rw [List.map_map]
        apply List.map_congr_left
        intro p hp
        obtain ⟨n, i⟩ := p
        simp only [Function.comp]
        rw [updateOneIndex_second i doc
          { doc with data := (applyUpdates doc.data u).1 } (hidx (n, i) hp)]

theorem modifyColl_idem (db : Database) (n : String) (g : Collection → Collection)
    (hs : SortedKeys db.collections)
    (hg : ∀ coll, lookupA db.collections n = some coll → g (g coll) = g coll) :
    modifyColl (modifyColl db n g) n g = modifyColl db n g := by
  cases hl : lookupA db.collections n with
  | none => simp [modifyColl, hl]
  | some coll =>
    simp only [modifyColl, hl, lookupA_insertA_self]
    rw [insertA_insertA_same _ _ _ _ hs, hg coll hl]

theorem modifyDB_idem (dm : DatabaseManager) (n : String)
    (f : Database → Database) (hs : SortedKeys dm.databases)
    (hf : ∀ db, lookupA dm.databases n = some db → f (f db) = f db) :
    modifyDB (modifyDB dm n f) n f = modifyDB dm n f := by
  cases hl : lookupA dm.databases n with
  | none => simp [modifyDB, hl]
  | some db =>
    simp only [modifyDB, hl, lookupA_insertA_self]
    rw [insertA_insertA_same _ _ _ _ hs, hf db hl]

/-- C7 (amended): replaying a single WAL entry is idempotent — applying any one
entry twice to a well-formed database-manager state yields the same state as
applying it once, because insert is guarded by an existence check on the
document id, update and delete are id-keyed, and the create operations are
guarded by existence checks.  (Replaying a whole WAL twice is NOT idempotent in
general; see the counterexample.) -/
theorem wal_single_entry_idempotent (S : DatabaseManager) (e : WALEntry)
    (hWF : S.WF) : applyEntry (applyEntry S e) e = applyEntry S e := by
  obtain ⟨hs, hdbs⟩ := hWF
  cases e with
  | createDatabase n =>
    by_cases hex : (lookupA S.databases n).isSome
    · simp [applyEntry, hex]
    · simp [applyEntry, hex]
  | deleteDatabase n =>
    simp only [applyEntry]
    rw [eraseA_of_not_mem _ _ (lookupA_eraseA_self _ _ hs)]
  | createCollection n c sch =>
    exact modifyDB_idem S n _ hs (fun db _ => CreateCollection_idem db c sch)
  | createIndex n c iN fN =>
    apply modifyDB_idem S n _ hs
    intro db hdb
    exact modifyColl_idem db c _ (hdbs (n, db) (mem_of_lookupA _ _ _ hdb)).1
      (fun coll _ => CreateIndex_idem coll iN fN)
  | insert n c doc =>
    apply modifyDB_idem S n _ hs
    intro db hdb
    exact modifyColl_idem db c _ (hdbs (n, db) (mem_of_lookupA _ _ _ hdb)).1
      (fun coll _ => Insert_idem coll "" doc)
  | update n c doc =>
    apply modifyDB_idem S n _ hs
    intro db hdb
    have hdbW := hdbs (n, db) (mem_of_lookupA _ _ _ hdb)
    apply modifyColl_idem db c _ hdbW.1
    intro coll hcoll
    exact Update_idem coll doc.id doc.data
      (hdbW.2 (c, coll) (mem_of_lookupA _ _ _ hcoll))
  | delete n c did =>
    apply modifyDB_idem S n _ hs
    intro db hdb
    have hdbW := hdbs (n, db) (mem_of_lookupA _ _ _ hdb)
    apply modifyColl_idem db c _ hdbW.1
    intro coll hcoll
    exact Delete_idem coll did
      (hdbW.2 (c, coll) (mem_of_lookupA _ _ _ hcoll)).1

/-- Witness for the amended C7 theorem: the empty database manager is
well-formed and a createDatabase entry is idempotent on it. -/
theorem wal_single_entry_idempotent_witness :
    DatabaseManager.WF NewDatabaseManager ∧
      applyEntry (applyEntry NewDatabaseManager (WALEntry.createDatabase "d"))
          (WALEntry.createDatabase "d") =
        applyEntry NewDatabaseManager (WALEntry.createDatabase "d") := by
  have hWF : DatabaseManager.WF NewDatabaseManager := by
    refine ⟨List.Pairwise.nil, ?_⟩
    intro p hp
    simp [NewDatabaseManager] at hp
  exact ⟨hWF, wal_single_entry_idempotent _ _ hWF⟩

/-! ## Reachability invariants (claim C3) -/

theorem insertA_mem_self {β : Type} (l : List (String × β)) (k : String) (v : β) :
    (k, v) ∈ insertA l k v := by
  induction l with
  | nil => simp [insertA]
  | cons hd t ih =>
    obtain ⟨k2, v2⟩ := hd
    by_cases h2 : k = k2
    · simp [insertA, h2]
    · by_cases h3 : strLt k k2 = true
      · simp [insertA, h2, h3]
      · simp [insertA, h2, h3, ih]

theorem mem_insertA_of_ne {β : Type} (l : List (String × β)) (k : String) (v : β)
    (p : String × β) (hp : p ∈ l) (hne : p.1 ≠ k) : p ∈ insertA l k v := by
  induction l with
  | nil => simp at hp
  | cons hd t ih =>
    obtain ⟨k2, v2⟩ := hd
    by_cases h2 : k = k2
    · rw [insertA, if_pos h2]
      rcases List.mem_cons.mp hp with h | h
      · exfalso
        apply hne
        rw [h]
        exact h2.symm
      · exact List.mem_cons_of_mem _ h
    · by_cases h3 : strLt k k2 = true
      · rw [insertA, if_neg h2, if_pos h3]
        exact List.mem_cons_of_mem _ hp
      · rw [insertA, if_neg h2, if_neg h3]
        rcases List.mem_cons.mp hp with h | h
        · exact List.mem_cons.mpr (Or.inl h)
        · exact List.mem_cons_of_mem _ (ih h)

theorem mem_insertA_sorted {β : Type} (l : List (String × β)) (k : String) (v : β)
    (p : String × β) (hs : SortedKeys l) (hp : p ∈ insertA l k v) :
    p = (k, v) ∨ (p ∈ l ∧ p.1 ≠ k) := by
  induction l with
  | nil =>
    simp only [insertA, List.mem_singleton] at hp
    exact Or.inl hp
  | cons hd t ih =>
    obtain ⟨k2, v2⟩ := hd
    have hpc := List.pairwise_cons.mp hs
    by_cases h2 : k = k2
    · rw [insertA, if_pos h2] at hp
      rcases List.mem_cons.mp hp with h | h
      · exact Or.inl h
      · have hlt : strLt k2 p.1 = true := hpc.1 p h
        refine Or.inr ⟨List.mem_cons_of_mem _ h, ?_⟩
        intro he
        rw [he, ← h2, strLt_irrefl] at hlt
        exact Bool.false_ne_true hlt
    · by_cases h3 : strLt k k2 = true
      · rw [insertA, if_neg h2, if_pos h3] at hp
        rcases List.mem_cons.mp hp with h | h
        · exact Or.inl h
        · refine Or.inr ⟨h, ?_⟩
          rcases List.mem_cons.mp h with h4 | h4
          · intro he
            rw [h4] at he
            exact h2 he.symm
          · have hlt : strLt k2 p.1 = true := hpc.1 p h4
            have hlt2 : strLt k p.1 = true := strLt_trans _ _ _ h3 hlt
            intro he
            rw [he, strLt_irrefl] at hlt2
            exact Bool.false_ne_true hlt2
      · rw [insertA, if_neg h2, if_neg h3] at hp
        rcases List.mem_cons.mp hp with h | h
        · refine Or.inr ⟨List.mem_cons.mpr (Or.inl h), ?_⟩
          intro he
          rw [h] at he
          exact h2 he.symm
        · rcases ih hpc.2 h with h4 | h4
          · exact Or.inl h4
          · exact Or.inr ⟨List.mem_cons_of_mem _ h4.1, h4.2⟩

theorem mem_eraseA_sorted {β : Type} (l : List (String × β)) (k : String)
    (p : String × β) (hs : SortedKeys l) (hp : p ∈ eraseA l k) :
    p ∈ l ∧ p.1 ≠ k := by
  induction l with
  | nil => simp [eraseA] at hp
  | cons hd t ih =>
    obtain ⟨k2, v2⟩ := hd
    have hpc := List.pairwise_cons.mp hs
    by_cases h2 : k2 = k
    · rw [eraseA, if_pos h2] at hp
      refine ⟨List.mem_cons_of_mem _ hp, ?_⟩
      have hlt : strLt k2 p.1 = true := hpc.1 p hp
      intro he
      rw [he, h2, strLt_irrefl] at hlt
      exact Bool.false_ne_true hlt
    · rw [eraseA, if_neg h2] at hp
      rcases List.mem_cons.mp hp with h | h
      · refine ⟨List.mem_cons.mpr (Or.inl h), ?_⟩
        intro he
        rw [h] at he
        exact h2 he
      · have h4 := ih hpc.2 h
        exact ⟨List.mem_cons_of_mem _ h4.1, h4.2⟩

theorem updFlag_false_of_noId (u : List (String × Value))
    (h : u.all (fun p => p.1 ≠ "_id") = true) : updFlag u = false := by
  induction u with
  | nil => rfl
  | cons p t ih =>
    obtain ⟨k, v⟩ := p
    simp only [List.all_cons, Bool.and_eq_true] at h
    have h1 : ¬ k = "_id" := of_decide_eq_true h.1
    rw [updFlag, if_neg h1]
    exact ih h.2

theorem addP_fieldName (idx : Index) (d : Document) :
    (Index.addP idx d).fieldName = idx.fieldName := by
  cases hg : d.GetValue idx.fieldName <;>
    simp [Index.addP, Index.AddToIndex, hg]

theorem foldl_addP_fieldName (docs : List Document) (idx : Index) :
    (docs.foldl Index.addP idx).fieldName = idx.fieldName := by
  induction docs generalizing idx with
  | nil => rfl
  | cons d t ih => rw [List.foldl_cons, ih, addP_fieldName]

theorem foldl_addP_complete (docs : List Document) (idx : Index)
    (hinj : ∀ d₁ ∈ docs, ∀ d₂ ∈ docs, ∀ s, keyOf d₁ idx.fieldName = some s →
      keyOf d₂ idx.fieldName = some s → d₁.id = d₂.id) :
    ∀ d ∈ docs, ∀ s, keyOf d idx.fieldName = some s →
      lookupA (docs.foldl Index.addP idx).data s = some d.id := by
  induction docs using List.reverseRecOn with
  | nil =>
    intro d hd
    simp at hd
  | append_singleton l d₀ ih =>
    intro d hd s hk
    rw [List.foldl_append, List.foldl_cons, List.foldl_nil]
    have hfA : (l.foldl Index.addP idx).fieldName = idx.fieldName :=
      foldl_addP_fieldName l idx
    rcases List.mem_append.mp hd with hdl | hdd
    · have hprev := ih
        (fun d₁ h₁ d₂ h₂ => hinj d₁ (List.mem_append_left _ h₁)
          d₂ (List.mem_append_left _ h₂)) d hdl s hk
      cases hg : d₀.GetValue (l.foldl Index.addP idx).fieldName with
      | none =>
        simp only [Index.addP, Index.AddToIndex, hg]
        exact hprev
      | some v =>
        simp only [Index.addP, Index.AddToIndex, hg]
        by_cases hfs : fmtV v = s
        · have hk0 : keyOf d₀ idx.fieldName = some s := by
            rw [keyOf, ← hfA, hg]
            simp [hfs]
          have hid := hinj d₀
            (List.mem_append_right _ (List.mem_singleton_self d₀))
            d (List.mem_append_left _ hdl) s hk0 hk
          rw [hfs, lookupA_insertA_self, hid]
        · rw [lookupA_insertA_ne _ _ _ _ (fun he => hfs he.symm)]
          exact hprev
    · have hdd2 : d = d₀ := List.mem_singleton.mp hdd
      subst hdd2
      have hg0 := hk
      rw [keyOf] at hg0
      cases hg : d.GetValue idx.fieldName with
      | none =>
        rw [hg] at hg0
        simp at hg0
      | some v =>
        rw [hg] at hg0
        simp at hg0
        have hg2 : d.GetValue (l.foldl Index.addP idx).fieldName = some v := by
          rw [hfA, hg]
        simp only [Index.addP, Index.AddToIndex, hg2]
        rw [hg0, lookupA_insertA_self]

theorem sortedKeys_map_snd {β γ : Type} (l : List (String × β)) (g : β → γ)
    (hs : SortedKeys l) : SortedKeys (l.map (fun p => (p.1, g p.2))) := by
  rw [SortedKeys, List.pairwise_map]
  exact hs.imp (fun h => h)

/-- Case analysis of the post-state of `Collection.Insert`: the collection is
unchanged on the guard paths, and otherwise the (possibly re-identified)
document is inserted and every index receives its key. -/
theorem Insert_state (c : Collection) (g : String) (d : Document) :
    (c.Insert g d).2 = c ∨
    ∃ dd : Document, dd = (if d.id = "" then { d with id := g } else d) ∧
      lookupA c.documents dd.id = none ∧
      (c.Insert g d).2 = { c with
        documents := insertA c.documents dd.id dd,
        indexes := c.indexes.map
          (fun p => (p.1, updateOneIndex none (some dd) p.2)) } := by
  by_cases hdup :
      (lookupA c.documents (if d.id = "" then { d with id := g } else d).id).isSome
  · left
    simp [Collection.Insert, hdup]
  · cases hval : validateDocOpt c.schema
        (if d.id = "" then { d with id := g } else d) with
    | some e =>
      left
      simp [Collection.Insert, hdup, hval]
    | none =>
      right
      refine ⟨_, rfl, ?_, ?_⟩
      · cases hle : lookupA c.documents
            (if d.id = "" then { d with id := g } else d).id
        · rfl
        · rw [hle] at hdup
          simp at hdup
      · simp [Collection.Insert, hdup, hval, updateIndexesGo_ok]

/-- Case analysis of the post-state of `Collection.Update`: unchanged on the
not-found and schema-rollback paths; on the aborted `_id` path the partially
updated document replaces the pre-image with the indexes untouched; on success
the updated document replaces the pre-image and every index is refreshed. -/
theorem Update_state (c : Collection) (id : String) (u : List (String × Value))
    (hsd : SortedKeys c.documents) :
    (c.Update id u).2 = c ∨
    ∃ doc : Document, lookupA c.documents id = some doc ∧
      (((applyUpdates doc.data u).2 = true ∧
        (c.Update id u).2 = { c with
          documents := insertA c.documents id
            { doc with data := (applyUpdates doc.data u).1 } }) ∨
       (c.Update id u).2 = { c with
          documents := insertA c.documents id
            { doc with data := (applyUpdates doc.data u).1 },
          indexes := c.indexes.map (fun p => (p.1,
            updateOneIndex (some doc)
              (some { doc with data := (applyUpdates doc.data u).1 }) p.2)) }) := by
  cases hl : lookupA c.documents id with
  | none =>
    left
    simp [Collection.Update, hl]
  | some doc =>
    cases hfl : (applyUpdates doc.data u).2 with
    | true =>
      right
      exact ⟨doc, rfl, Or.inl ⟨hfl, by simp [Collection.Update, hl, hfl]⟩⟩
    | false =>
      cases hval : validateDocOpt c.schema
          { doc with data := (applyUpdates doc.data u).1 } with
      | some e =>
        left
        simp only [Collection.Update, hl, Document.Clone, hfl, hval,
          Bool.false_eq_true, if_false]
        rw [insertA_insertA_same _ _ _ _ hsd, insertA_self _ _ _ hsd hl]
      | none =>
        right
        refine ⟨doc, rfl, Or.inr ?_⟩
        simp [Collection.Update, hl, hfl, hval, updateIndexesGo_ok, Document.Clone]

/-- Case analysis of the post-state of `Collection.Delete`. -/
theorem Delete_state (c : Collection) (id : String) :
    (c.Delete id).2 = c ∨
    ∃ doc : Document, lookupA c.documents id = some doc ∧
      (c.Delete id).2 = { c with
        documents := eraseA c.documents id,
        indexes := c.indexes.map
          (fun p => (p.1, updateOneIndex (some doc) none p.2)) } := by
  cases hl : lookupA c.documents id with
  | none =>
    left
    simp [Collection.Delete, hl]
  | some doc =>
    right
    exact ⟨doc, rfl, by simp [Collection.Delete, hl, updateIndexesGo_ok]⟩

/-- Case analysis of the post-state of `Collection.CreateIndex`. -/
theorem CreateIndex_state (c : Collection) (n f : String) :
    (c.CreateIndex n f).2 = c ∨
    ∃ built : Index,
      built = (c.documents.map Prod.snd).foldl Index.addP (NewIndex n f) ∧
      (c.CreateIndex n f).2 = { c with indexes := insertA c.indexes n built } := by
  by_cases hex : (lookupA c.indexes n).isSome
  · left
    simp [Collection.CreateIndex, hex]
  · right
    refine ⟨_, rfl, ?_⟩
    simp [Collection.CreateIndex, hex, buildIndexGo_eq]

/-- Case analysis of the post-state of `Collection.DropIndex`. -/
theorem DropIndex_state (c : Collection) (n : String) :
    (c.DropIndex n).2 = c ∨
    (c.DropIndex n).2 = { c with indexes := eraseA c.indexes n } := by
  by_cases h1 : n = "_id"
  · left
    simp [Collection.DropIndex, h1]
  · by_cases h2 : (lookupA c.indexes n).isNone
    · left
      simp [Collection.DropIndex, h1, h2]
    · right
      simp [Collection.DropIndex, h1, h2]

theorem step_keysId (c : Collection) (op : Op) (hK : c.KeysId) :
    (c.step op).KeysId := by
  obtain ⟨hsd, hsi, hkid⟩ := hK
  cases op with
  | insert g d =>
    show ((c.Insert g d).2).KeysId
    rcases Insert_state c g d with heq | ⟨dd, hdd, hnew, heq⟩
    · rw [heq]
      exact ⟨hsd, hsi, hkid⟩
    · rw [heq]
      refine ⟨sortedKeys_insertA _ _ _ hsd, sortedKeys_map_snd _ _ hsi, ?_⟩
      intro p hp
      rcases mem_insertA_sorted _ _ _ _ hsd hp with h | h
      · rw [h]
      · exact hkid p h.1
  | update id u =>
    show ((c.Update id u).2).KeysId
    rcases Update_state c id u hsd with heq | ⟨doc, hl, hrest⟩
    · rw [heq]
      exact ⟨hsd, hsi, hkid⟩
    · have hdid : id = doc.id := hkid (id, doc) (mem_of_lookupA _ _ _ hl)
      rcases hrest with ⟨hfl, heq⟩ | heq
      · rw [heq]
        refine ⟨sortedKeys_insertA _ _ _ hsd, hsi, ?_⟩
        intro p hp
        rcases mem_insertA_sorted _ _ _ _ hsd hp with h | h
        · rw [h]
          exact hdid
        · exact hkid p h.1
      · rw [heq]
        refine ⟨sortedKeys_insertA _ _ _ hsd, sortedKeys_map_snd _ _ hsi, ?_⟩
        intro p hp
        rcases mem_insertA_sorted _ _ _ _ hsd hp with h | h
        · rw [h]
          exact hdid
        · exact hkid p h.1
  | delete id =>
    show ((c.Delete id).2).KeysId
    rcases Delete_state c id with heq | ⟨doc, hl, heq⟩
    · rw [heq]
      exact ⟨hsd, hsi, hkid⟩
    · rw [heq]
      refine ⟨sortedKeys_eraseA _ _ hsd, sortedKeys_map_snd _ _ hsi, ?_⟩
      intro p hp
      exact hkid p (mem_eraseA _ _ _ hp)
  | createIndex n f =>
    show ((c.CreateIndex n f).2).KeysId
    rcases CreateIndex_state c n f with heq | ⟨built, hbuilt, heq⟩
    · rw [heq]
      exact ⟨hsd, hsi, hkid⟩
    · rw [heq]
      exact ⟨hsd, sortedKeys_insertA _ _ _ hsi, hkid⟩
  | dropIndex n =>
    show ((c.DropIndex n).2).KeysId
    rcases DropIndex_state c n with heq | heq
    · rw [heq]
      exact ⟨hsd, hsi, hkid⟩
    · rw [heq]
      exact ⟨hsd, sortedKeys_eraseA _ _ hsi, hkid⟩

theorem foldl_step_keysId (ops : List Op) (c : Collection) (hK : c.KeysId) :
    (ops.foldl Collection.step c).KeysId := by
  induction ops generalizing c with
  | nil => exact hK
  | cons op t ih => exact ih _ (step_keysId c op hK)

theorem runOps_keysId (name : String) (schema : Option Schema) (ops : List Op) :
    (runOps name schema ops).KeysId := by
  apply foldl_step_keysId
  refine ⟨List.Pairwise.nil, ?_, ?_⟩
  · simp [NewCollection]
  · intro p hp
    simp [NewCollection] at hp

theorem insert_complete_aux (c : Collection) (dd : Document)
    (hsd : SortedKeys c.documents)
    (hC : c.IndexComplete)
    (hI₂ : Collection.InjKeys { c with
      documents := insertA c.documents dd.id dd,
      indexes := c.indexes.map
        (fun p => (p.1, updateOneIndex none (some dd) p.2)) }) :
    Collection.IndexComplete { c with
      documents := insertA c.documents dd.id dd,
      indexes := c.indexes.map
        (fun p => (p.1, updateOneIndex none (some dd) p.2)) } := by
  intro q hq p hp s hkey
  have hq2 : q ∈ c.indexes.map
      (fun p => (p.1, updateOneIndex none (some dd) p.2)) := hq
  have hp2 : p ∈ insertA c.documents dd.id dd := hp
  obtain ⟨⟨n, idx⟩, hmem, hqe⟩ := List.mem_map.mp hq2
  have hqsnd : q.2 = updateOneIndex none (some dd) idx := by rw [← hqe]
  have hqf : q.2.fieldName = idx.fieldName := by
    rw [hqsnd, updateOneIndex_fieldName]
  rw [hqf] at hkey
  rw [hqsnd]
  rcases mem_insertA_sorted _ _ _ _ hsd hp2 with hpd | ⟨hpc, hpne⟩
  · have hkd : keyOf dd idx.fieldName = some s := by
      rw [← hkey, hpd]
    rw [keyOf] at hkd
    cases hg : dd.GetValue idx.fieldName with
    | none =>
      rw [hg] at hkd
      simp at hkd
    | some v =>
      rw [hg] at hkd
      simp at hkd
      simp only [updateOneIndex, hg]
      rw [hkd, hpd, lookupA_insertA_self]
  · have hCl := hC (n, idx) hmem p hpc s hkey
    cases hg : dd.GetValue idx.fieldName with
    | none =>
      simp only [updateOneIndex, hg]
      exact hCl
    | some v =>
      simp only [updateOneIndex, hg]
      by_cases hfs : fmtV v = s
      · exfalso
        have hkdd : keyOf dd idx.fieldName = some s := by
          rw [keyOf, hg]
          simp [hfs]
        have hpost := hI₂ (n, updateOneIndex none (some dd) idx)
          (List.mem_map.mpr ⟨(n, idx), hmem, rfl⟩) p hp (dd.id, dd)
          (insertA_mem_self _ _ _)
          (by show (keyOf p.2
                (updateOneIndex none (some dd) idx).fieldName).isSome = true
              rw [updateOneIndex_fieldName, hkey]
              rfl)
          (by show keyOf p.2 (updateOneIndex none (some dd) idx).fieldName =
                keyOf dd (updateOneIndex none (some dd) idx).fieldName
              rw [updateOneIndex_fieldName, hkey, hkdd])
        exact hpne hpost
      · rw [lookupA_insertA_ne _ _ _ _ (fun he => hfs he.symm)]
        exact hCl

theorem update_complete_aux (c : Collection) (id : String) (doc doc₂ : Document)
    (hl : lookupA c.documents id = some doc)
    (hsd : SortedKeys c.documents)
    (hC : c.IndexComplete) (hI : c.InjKeys)
    (hI₂ : Collection.InjKeys { c with
      documents := insertA c.documents id doc₂,
      indexes := c.indexes.map
        (fun p => (p.1, updateOneIndex (some doc) (some doc₂) p.2)) }) :
    Collection.IndexComplete { c with
      documents := insertA c.documents id doc₂,
      indexes := c.indexes.map
        (fun p => (p.1, updateOneIndex (some doc) (some doc₂) p.2)) } := by
  intro q hq p hp s hkey
  have hq2 : q ∈ c.indexes.map
      (fun p => (p.1, updateOneIndex (some doc) (some doc₂) p.2)) := hq
  have hp2 : p ∈ insertA c.documents id doc₂ := hp
  obtain ⟨⟨n, idx⟩, hmem, hqe⟩ := List.mem_map.mp hq2
  have hqsnd : q.2 = updateOneIndex (some doc) (some doc₂) idx := by rw [← hqe]
  have hqf : q.2.fieldName = idx.fieldName := by
    rw [hqsnd, updateOneIndex_fieldName]
  rw [hqf] at hkey
  rw [hqsnd]
  rcases mem_insertA_sorted _ _ _ _ hsd hp2 with hpd | ⟨hpc, hpne⟩
  · have hkd : keyOf doc₂ idx.fieldName = some s := by
      rw [← hkey, hpd]
    rw [keyOf] at hkd
    cases hg1 : doc₂.GetValue idx.fieldName with
    | none =>
      rw [hg1] at hkd
      simp at hkd
    | some v₁ =>
      rw [hg1] at hkd
      simp at hkd
      rw [hpd]
      cases hg0 : doc.GetValue idx.fieldName with
      | none =>
        simp only [updateOneIndex, hg0, hg1]
        rw [hkd, lookupA_insertA_self]
      | some v₀ =>
        simp only [updateOneIndex, hg0, hg1]
        rw [hkd, lookupA_insertA_self]
  · have hCl := hC (n, idx) hmem p hpc s hkey
    cases hg0 : doc.GetValue idx.fieldName with
    | none =>
      cases hg1 : doc₂.GetValue idx.fieldName with
      | none =>
        simp only [updateOneIndex, hg0, hg1]
        exact hCl
      | some v₁ =>
        simp only [updateOneIndex, hg0, hg1]
        by_cases hfs : fmtV v₁ = s
        · exfalso
          have hkd2 : keyOf doc₂ idx.fieldName = some s := by
            rw [keyOf, hg1]
            simp [hfs]
          have hpost := hI₂ (n, updateOneIndex (some doc) (some doc₂) idx)
            (List.mem_map.mpr ⟨(n, idx), hmem, rfl⟩) p hp (id, doc₂)
            (insertA_mem_self _ _ _)
            (by show (keyOf p.2
                  (updateOneIndex (some doc) (some doc₂) idx).fieldName).isSome = true
                rw [updateOneIndex_fieldName, hkey]
                rfl)
            (by show keyOf p.2
                  (updateOneIndex (some doc) (some doc₂) idx).fieldName =
                keyOf doc₂ (updateOneIndex (some doc) (some doc₂) idx).fieldName
                rw [updateOneIndex_fieldName, hkey, hkd2])
          exact hpne hpost
        · rw [lookupA_insertA_ne _ _ _ _ (fun he => hfs he.symm)]
          exact hCl
    | some v₀ =>
      have hne0 : fmtV v₀ ≠ s := by
        intro he
        have hkdoc : keyOf doc idx.fieldName = some s := by
          rw [keyOf, hg0]
          simp [he]
        have hpre := hI (n, idx) hmem (id, doc) (mem_of_lookupA _ _ _ hl) p hpc
          (by show (keyOf doc idx.fieldName).isSome = true
              rw [hkdoc]
              rfl)
          (by show keyOf doc idx.fieldName = keyOf p.2 idx.fieldName
              rw [hkdoc, hkey])
        exact hpne hpre.symm
      cases hg1 : doc₂.GetValue idx.fieldName with
      | none =>
        simp only [updateOneIndex, hg0, hg1]
        rw [lookupA_eraseA_ne _ _ _ (fun he => hne0 he.symm)]
        exact hCl
      | some v₁ =>
        simp only [updateOneIndex, hg0, hg1]
        by_cases hfs : fmtV v₁ = s
        · exfalso
          have hkd2 : keyOf doc₂ idx.fieldName = some s := by
            rw [keyOf, hg1]
            simp [hfs]
          have hpost := hI₂ (n, updateOneIndex (some doc) (some doc₂) idx)
            (List.mem_map.mpr ⟨(n, idx), hmem, rfl⟩) p hp (id, doc₂)
            (insertA_mem_self _ _ _)
            (by show (keyOf p.2
                  (updateOneIndex (some doc) (some doc₂) idx).fieldName).isSome = true
                rw [updateOneIndex_fieldName, hkey]
                rfl)
            (by show keyOf p.2
                  (updateOneIndex (some doc) (some doc₂) idx).fieldName =
                keyOf doc₂ (updateOneIndex (some doc) (some doc₂) idx).fieldName
                rw [updateOneIndex_fieldName, hkey, hkd2])
          exact hpne hpost
        · rw [lookupA_insertA_ne _ _ _ _ (fun he => hfs he.symm),
            lookupA_eraseA_ne _ _ _ (fun he => hne0 he.symm)]
          exact hCl

theorem delete_complete_aux (c : Collection) (id : String) (doc : Document)
    (hl : lookupA c.documents id = some doc)
    (hsd : SortedKeys c.documents)
    (hC : c.IndexComplete) (hI : c.InjKeys) :
    Collection.IndexComplete { c with
      documents := eraseA c.documents id,
      indexes := c.indexes.map
        (fun p => (p.1, updateOneIndex (some doc) none p.2)) } := by
  intro q hq p hp s hkey
  have hq2 : q ∈ c.indexes.map
      (fun p => (p.1, updateOneIndex (some doc) none p.2)) := hq
  have hp2 : p ∈ eraseA c.documents id := hp
  obtain ⟨⟨n, idx⟩, hmem, hqe⟩ := List.mem_map.mp hq2
  have hqsnd : q.2 = updateOneIndex (some doc) none idx := by rw [← hqe]
  have hqf : q.2.fieldName = idx.fieldName := by
    rw [hqsnd, updateOneIndex_fieldName]
  rw [hqf] at hkey
  rw [hqsnd]
  obtain ⟨hpc, hpne⟩ := mem_eraseA_sorted _ _ _ hsd hp2
  have hCl := hC (n, idx) hmem p hpc s hkey
  cases hg0 : doc.GetValue idx.fieldName with
  | none =>
    simp only [updateOneIndex, hg0]
    exact hCl
  | some v₀ =>
    have hne0 : fmtV v₀ ≠ s := by
      intro he
      have hkdoc : keyOf doc idx.fieldName = some s := by
        rw [keyOf, hg0]
        simp [he]
      have hpre := hI (n, idx) hmem (id, doc) (mem_of_lookupA _ _ _ hl) p hpc
        (by show (keyOf doc idx.fieldName).isSome = true
            rw [hkdoc]
            rfl)
        (by show keyOf doc idx.fieldName = keyOf p.2 idx.fieldName
            rw [hkdoc, hkey])
      exact hpne hpre.symm
    simp only [updateOneIndex, hg0]
    rw [lookupA_eraseA_ne _ _ _ (fun he => hne0 he.symm)]
    exact hCl

/-- One step preserves the user-index agreement invariant, provided the
operation does not touch the reserved key and neither the pre- nor the
post-state has a key collision. -/
theorem step_complete (c : Collection) (op : Op)
    (hK : c.KeysId) (hC : c.IndexComplete) (hI : c.InjKeys)
    (hI₂ : (c.step op).InjKeys) (hnid : op.noId = true) :
    (c.step op).IndexComplete := by
  obtain ⟨hsd, hsi, hkid⟩ := hK
  cases op with
  | insert g d =>
    show ((c.Insert g d).2).IndexComplete
    rcases Insert_state c g d with heq | ⟨dd, hdd, hnew, heq⟩
    · rw [heq]
      exact hC
    · have hI₂2 : ((c.Insert g d).2).InjKeys := hI₂
      rw [heq] at hI₂2
      rw [heq]
      exact insert_complete_aux c dd hsd hC hI₂2
  | update id u =>
    show ((c.Update id u).2).IndexComplete
    rcases Update_state c id u hsd with heq | ⟨doc, hl, hrest⟩
    · rw [heq]
      exact hC
    · rcases hrest with ⟨hfl, heq⟩ | heq
      · exfalso
        rw [applyUpdates_flag, updFlag_false_of_noId u hnid] at hfl
        exact Bool.false_ne_true hfl
      · have hI₂2 : ((c.Update id u).2).InjKeys := hI₂
        rw [heq] at hI₂2
        rw [heq]
        exact update_complete_aux c id doc _ hl hsd hC hI hI₂2
  | delete id =>
    show ((c.Delete id).2).IndexComplete
    rcases Delete_state c id with heq | ⟨doc, hl, heq⟩
    · rw [heq]
      exact hC
    · rw [heq]
      exact delete_complete_aux c id doc hl hsd hC hI
  | createIndex n f =>
    show ((c.CreateIndex n f).2).IndexComplete
    rcases CreateIndex_state c n f with heq | ⟨built, hbuilt, heq⟩
    · rw [heq]
      exact hC
    · have hI₂2 : ((c.CreateIndex n f).2).InjKeys := hI₂
      rw [heq] at hI₂2
      rw [heq]
      intro q hq p hp s hkey
      have hq2 : q ∈ insertA c.indexes n built := hq
      have hp2 : p ∈ c.documents := hp
      rcases mem_insertA_sorted _ _ _ _ hsi hq2 with hqn | ⟨hqc, hqne⟩
      · subst hbuilt
        have hbf : ((c.documents.map Prod.snd).foldl Index.addP
            (NewIndex n f)).fieldName = f := foldl_addP_fieldName _ _
        have hq22 : q.2 = (c.documents.map Prod.snd).foldl Index.addP
            (NewIndex n f) := by rw [hqn]
        rw [hq22] at hkey ⊢
        rw [hbf] at hkey
        have hinj : ∀ d₁ ∈ c.documents.map Prod.snd,
            ∀ d₂ ∈ c.documents.map Prod.snd, ∀ s2,
            keyOf d₁ f = some s2 →
            keyOf d₂ f = some s2 → d₁.id = d₂.id := by
          intro d₁ h₁ d₂ h₂ s2 hk₁ hk₂
          obtain ⟨p₁, hp₁, he₁⟩ := List.mem_map.mp h₁
          obtain ⟨p₂, hp₂, he₂⟩ := List.mem_map.mp h₂
          have hconc := hI₂2
            (n, (c.documents.map Prod.snd).foldl Index.addP (NewIndex n f))
            (insertA_mem_self _ _ _) p₁ hp₁ p₂ hp₂
            (by show (keyOf p₁.2 ((c.documents.map Prod.snd).foldl Index.addP
                  (NewIndex n f)).fieldName).isSome = true
                rw [hbf, he₁, hk₁]
                rfl)
            (by show keyOf p₁.2 ((c.documents.map Prod.snd).foldl Index.addP
                  (NewIndex n f)).fieldName =
                keyOf p₂.2 ((c.documents.map Prod.snd).foldl Index.addP
                  (NewIndex n f)).fieldName
                rw [hbf, he₁, he₂, hk₁, hk₂])
          have h11 := hkid p₁ hp₁
          have h22 := hkid p₂ hp₂
          rw [← he₁, ← he₂, ← h11, ← h22]
          exact hconc
        exact foldl_addP_complete _ _ hinj p.2
          (List.mem_map.mpr ⟨p, hp2, rfl⟩) s hkey
      · exact hC q hqc p hp2 s hkey
  | dropIndex n =>
    show ((c.DropIndex n).2).IndexComplete
    rcases DropIndex_state c n with heq | heq
    · rw [heq]
      exact hC
    · rw [heq]
      intro q hq p hp s hkey
      have hq2 : q ∈ eraseA c.indexes n := hq
      exact hC q (mem_eraseA _ _ _ hq2) p hp s hkey

/-- C3 (amended): the user-index agreement invariant holds for every collection
state reached from a fresh collection by a trace of operations, provided no
update touches the reserved key and no key collision ever arises along the
trace (no two live documents stringify to the same key on an indexed field at
any prefix of the trace): every user index then maps the stringified indexed
field value of every live document possessing the field to that document's id.
Without the collision-freedom proviso the invariant fails — deleting one of two
colliding documents drops the survivor's key (see the counterexample). -/
theorem user_index_agreement_of_collision_free_trace (name : String)
    (schema : Option Schema) :
    ∀ ops : List Op, (∀ op ∈ ops, op.noId = true) →
      (∀ pre ∈ ops.inits, (runOps name schema pre).InjKeys) →
      (runOps name schema ops).IndexComplete := by
  intro ops
  induction ops using List.reverseRecOn with
  | nil =>
    intro hnid hinj q hq p hp s hkey
    simp [runOps, NewCollection] at hp
  | append_singleton l op ih =>
    intro hnid hinj
    have hK := runOps_keysId name schema l
    have hC := ih (fun o ho => hnid o (List.mem_append_left _ ho))
      (fun pre hpre => hinj pre ((List.mem_inits _ _).mpr
        (((List.mem_inits _ _).mp hpre).trans (List.prefix_append l [op]))))
    have hI := hinj l ((List.mem_inits _ _).mpr (List.prefix_append l [op]))
    have hI₂ := hinj (l ++ [op]) ((List.mem_inits _ _).mpr (List.prefix_refl _))
    have hstep : runOps name schema (l ++ [op]) =
        Collection.step (runOps name schema l) op := by
      rw [runOps, runOps, List.foldl_append, List.foldl_cons, List.foldl_nil]
    rw [hstep]
    rw [hstep] at hI₂
    exact step_complete _ op hK hC hI hI₂
      (hnid op (List.mem_append_right _ (List.mem_singleton_self op)))

/-- Witness for the amended C3 theorem: a concrete collision-free trace — insert
two documents with distinct indexed values, create a user index, delete one
document — satisfies both hypotheses and the invariant. -/
theorem user_index_agreement_witness :
    (∀ op ∈ ([Op.insert "d1" (Document.mk "" [("a", Value.str "x")]),
        Op.insert "d2" (Document.mk "" [("a", Value.str "y")]),
        Op.createIndex "ia" "a",
        Op.delete "d2"] : List Op), op.noId = true) ∧
    (∀ pre ∈ ([Op.insert "d1" (Document.mk "" [("a", Value.str "x")]),
        Op.insert "d2" (Document.mk "" [("a", Value.str "y")]),
        Op.createIndex "ia" "a",
        Op.delete "d2"] : List Op).inits,
      (runOps "c" none pre).InjKeys) ∧
    (runOps "c" none [Op.insert "d1" (Document.mk "" [("a", Value.str "x")]),
        Op.insert "d2" (Document.mk "" [("a", Value.str "y")]),
        Op.createIndex "ia" "a",
        Op.delete "d2"]).IndexComplete :=
  ⟨by decide, by simp only [Collection.InjKeys]; decide,
    user_index_agreement_of_collision_free_trace "c" none
      [Op.insert "d1" (Document.mk "" [("a", Value.str "x")]),
        Op.insert "d2" (Document.mk "" [("a", Value.str "y")]),
        Op.createIndex "ia" "a",
        Op.delete "d2"] (by decide)
      (by simp only [Collection.InjKeys]; decide)⟩

end CachyDB